import Mathlib

/-!
# Keeper configuration client: flattening and store access

A shallow embedding of `internal/pkg/keeper` (conversion.go, client.go,
mock_keeper.go, api/kv.go, api/caller.go, utils/http).

Go strings are Lean strings, Go `int` is `Int`, slices are lists, and a Go
`map[string]interface{}` is an association list whose order stands for the
iteration order the runtime picks.
-/

namespace Keeper

/-! ## Go library functions used by the package -/

/-- The Go call `strconv.Itoa` on a non-negative slice index. -/
def strconvItoa (index : Nat) : String := Nat.repr index

/-- The Go call `strings.HasPrefix s pre`. -/
def stringsHasPrefix (s pre : String) : Bool := pre.data.isPrefixOf s.data

/-! ## api/const.go -/

/-- The constant `api.KeyDelimiter`. -/
def KeyDelimiter : String := "/"

/-! ## The values behind `interface{}` -/

/-- Scalars of a configuration tree, the values that reach the default branch of
the type switch of `convertMapToKVPairs`: string, integer, boolean and nil.
Floating-point values are outside the embedding. -/
inductive Scalar where
  | str (s : String)
  | int (i : Int)
  | bool (b : Bool)
  | null
deriving DecidableEq, Repr

/-- A configuration value: the three cases the type switch of
`convertMapToKVPairs` separates. -/
inductive ConfigValue where
  | scalar (s : Scalar)
  | sequence (items : List ConfigValue)
  | object (fields : List (String × ConfigValue))

/-- The call `cast.ToString` on the scalars: strings unchanged,
integers through `strconv.Itoa`, booleans through `strconv.FormatBool`, nil as
the empty string. -/
def castToString : Scalar → String
  | .str s => s
  | .int i => toString i
  | .bool b => if b then "true" else "false"
  | .null => ""

/-! ## conversion.go -/

/-- The struct `pair` of conversion.go. -/
structure pair where
  Key : String
  Value : String
deriving DecidableEq, Repr

/-- The local `pathPre` of `convertMapToKVPairs`: empty for the empty path,
otherwise the path followed by the delimiter. -/
def pathPre (path : String) : String :=
  if path = "" then "" else path ++ KeyDelimiter

mutual
/-- The function `convertMapToKVPairs` of conversion.go. -/
def convertMapToKVPairs (path : String) : ConfigValue → List pair
  | .sequence items => convertItems (pathPre path) 0 items
  | .object fields => convertFields (pathPre path) fields
  | .scalar value => [⟨path, castToString value⟩]
/-- The loop over a slice, from position `index` on. -/
def convertItems (pre : String) (index : Nat) : List ConfigValue → List pair
  | [] => []
  | item :: rest =>
      convertMapToKVPairs (pre ++ strconvItoa index) item ++ convertItems pre (index + 1) rest
/-- The loop over the entries of a map. -/
def convertFields (pre : String) : List (String × ConfigValue) → List pair
  | [] => []
  | (index, item) :: rest =>
      convertMapToKVPairs (pre ++ index) item ++ convertFields pre rest
end

/-! ## Leaf positions -/

mutual
/-- The scalar leaves of a value, each with the segments leading to it: a
field name for a map step, the decimal index for a sequence step. -/
def leaves : ConfigValue → List (List String × Scalar)
  | .scalar s => [([], s)]
  | .sequence items => leavesItems 0 items
  | .object fields => leavesFields fields
/-- Leaves of the elements of a sequence, from position `index` on. -/
def leavesItems (index : Nat) : List ConfigValue → List (List String × Scalar)
  | [] => []
  | item :: rest =>
      (leaves item).map (fun l => (strconvItoa index :: l.1, l.2)) ++ leavesItems (index + 1) rest
/-- Leaves of the fields of a map. -/
def leavesFields : List (String × ConfigValue) → List (List String × Scalar)
  | [] => []
  | (name, item) :: rest =>
      (leaves item).map (fun l => (name :: l.1, l.2)) ++ leavesFields rest
end

mutual
/-- Number of scalar leaves of a value. -/
def countLeaves : ConfigValue → Nat
  | .scalar _ => 1
  | .sequence items => countItems items
  | .object fields => countFields fields
/-- Number of scalar leaves below the elements of a sequence. -/
def countItems : List ConfigValue → Nat
  | [] => 0
  | item :: rest => countLeaves item + countItems rest
/-- Number of scalar leaves below the fields of a map. -/
def countFields : List (String × ConfigValue) → Nat
  | [] => 0
  | (_, item) :: rest => countLeaves item + countFields rest
end

/-- The key the specification gives the leaf behind `segs` under prefix `p`:
`p + "/" + s1 + ... + "/" + sk`. -/
def delimitedKey (p : String) (segs : List String) : String :=
  segs.foldl (fun key s => key ++ KeyDelimiter ++ s) p

/-- One recursion step as the code takes it: the segment alone below the empty
path, path, delimiter and segment otherwise. -/
def childPath (path seg : String) : String :=
  if path = "" then seg else path ++ KeyDelimiter ++ seg

/-- A sample tree: `{a: 1, b: [true, nil, -12]}`. -/
def sampleTree : ConfigValue :=
  .object [("a", .scalar (.int 1)),
    ("b", .sequence [.scalar (.bool true), .scalar .null, .scalar (.int (-12))])]

mutual
/-- Every field name of the value, at any depth, satisfies `ok`. -/
def namesAll (ok : String → Bool) : ConfigValue → Bool
  | .scalar _ => true
  | .sequence items => namesAllItems ok items
  | .object fields => namesAllFields ok fields
/-- Field names below the elements of a sequence satisfy `ok`. -/
def namesAllItems (ok : String → Bool) : List ConfigValue → Bool
  | [] => true
  | item :: rest => namesAll ok item && namesAllItems ok rest
/-- Field names of the given fields, and below them, satisfy `ok`. -/
def namesAllFields (ok : String → Bool) : List (String × ConfigValue) → Bool
  | [] => true
  | (name, item) :: rest => ok name && namesAll ok item && namesAllFields ok rest
end

mutual
/-- Every map of the value has pairwise distinct field names, as a Go map
does. -/
def distinctNames : ConfigValue → Bool
  | .scalar _ => true
  | .sequence items => distinctNamesItems items
  | .object fields => decide (fields.map Prod.fst).Nodup && distinctNamesFields fields
/-- The maps below the elements of a sequence have distinct field names. -/
def distinctNamesItems : List ConfigValue → Bool
  | [] => true
  | item :: rest => distinctNames item && distinctNamesItems rest
/-- The maps below the given fields have distinct field names. -/
def distinctNamesFields : List (String × ConfigValue) → Bool
  | [] => true
  | (_, item) :: rest => distinctNames item && distinctNamesFields rest
end

/-- The name holds no delimiter character. -/
def noDelimiter (name : String) : Bool := !name.data.contains '/'

/-- The name is not the empty string. -/
def nonEmpty (name : String) : Bool := !name.data.isEmpty

/-- A tree with an empty field name: `{"": {a: 1}, a: 2}`. -/
def emptyNameTree : ConfigValue :=
  .object [("", .object [("a", .scalar (.int 1))]), ("a", .scalar (.int 2))]

/-- The pair the code produces for the leaf behind `l.1` holding `l.2`. -/
def leafPair (path : String) (l : List String × Scalar) : pair :=
  ⟨l.1.foldl childPath path, castToString l.2⟩

/-- Value of a decimal digit character. -/
def digitVal (c : Char) : Nat := c.toNat - 48

/-- The characters `"/" ++ s1 ++ ... ++ "/" ++ sk`. -/
def encodeSegments : List String → List Char
  | [] => []
  | s :: rest => '/' :: (s.data ++ encodeSegments rest)

/-! ## More Go library functions -/

/-- Infix search on character lists, behind `strings.Contains`. -/
def containsChars : List Char → List Char → Bool
  | [], sub => sub.isEmpty
  | c :: cs, sub => sub.isPrefixOf (c :: cs) || containsChars cs sub

/-- The Go call `strings.Contains s substr`. -/
def stringsContains (s substr : String) : Bool := containsChars s.data substr.data

/-- The leftmost occurrence of a non-empty `old` replaced by `new`. -/
def replaceOnceChars (old new : List Char) : List Char → List Char
  | [] => []
  | c :: cs =>
      if old.isPrefixOf (c :: cs) then new ++ (c :: cs).drop old.length
      else c :: replaceOnceChars old new cs

/-- The Go call `strings.Replace s old new 1`. -/
def stringsReplaceOnce (s old new : String) : String :=
  if old.data.isEmpty then new ++ s else ⟨replaceOnceChars old.data new.data s.data⟩

/-- One path element met by `path.Clean`; `out` holds the elements kept so far,
last one first. Empty and `.` elements are dropped, `..` removes the last kept
element when there is one that is not `..`, is kept on a path that is not
rooted, and is dropped at the root. -/
def cleanStep (rooted : Bool) (out : List (List Char)) (elem : List Char) : List (List Char) :=
  if elem = [] ∨ elem = ['.'] then out
  else if elem = ['.', '.'] then
    match out with
    | top :: below => if top = ['.', '.'] then (if rooted then out else elem :: out) else below
    | [] => if rooted then out else [elem]
  else elem :: out

/-- The Go call `path.Clean`, element by element. -/
def pathClean (path : String) : String :=
  if path = "" then "." else
    let rooted := path.data.head? == some '/'
    let out := ((path.data.splitOn '/').foldl (cleanStep rooted) []).reverse
    let body : String := ⟨['/'].intercalate out⟩
    if rooted then "/" ++ body else if body = "" then "." else body

/-- The Go call `path.Join`: the elements from the first non-empty one on,
joined by slashes and cleaned; the empty string when all are empty. -/
def pathJoin (elem : List String) : String :=
  match elem.dropWhile (fun e => e = "") with
  | [] => ""
  | kept => pathClean ("/".intercalate kept)

/-! ## More of api/const.go -/

/-- The constant `api.ApiBase`. -/
def ApiBase : String := "/api/v2"
/-- The constant `api.ApiKVRoute`. -/
def ApiKVRoute : String := ApiBase ++ "/kvs/key"
/-- The constant `api.ApiPingRoute`. -/
def ApiPingRoute : String := ApiBase ++ "/ping"
/-- The constant `api.Flatten`. -/
def Flatten : String := "flatten"
/-- The constant `api.KeyOnly`. -/
def KeyOnly : String := "keyOnly"
/-- The constant `api.Plaintext`. -/
def Plaintext : String := "plaintext"
/-- The constant `api.PrefixMatch`. -/
def PrefixMatch : String := "prefixMatch"

/-! ## dtos -/

/-- The struct `dtos.KV`. -/
structure KV where
  Key : String
  Value : ConfigValue

/-- The struct `dtos.MultiKVResponse`. -/
structure MultiKVResponse where
  KVs : List KV

/-- The struct `dtos.MultiKeyResponse`. -/
structure MultiKeyResponse where
  Keys : List String

/-- The struct `dtos.AddKeysRequest`. -/
structure AddKeysRequest where
  Value : ConfigValue

/-! ## utils/http -/

/-- The struct `ErrorResponse` of utils/http/common.go. -/
structure ErrorResponse where
  Message : String
  StatusCode : Int
deriving DecidableEq, Repr

/-- The zero value of `ErrorResponse`. -/
def ErrorResponse.zero : ErrorResponse := ⟨"", 0⟩

/-- A message body by the document it carries: bytes that are no JSON document
(the empty body among them), or the JSON encoding of one of the structs that
travel between the store and the client. -/
inductive Body where
  | raw (bytes : String)
  | errorResponse (e : ErrorResponse)
  | multiKey (r : MultiKeyResponse)
  | multiKV (r : MultiKVResponse)

/-- The test `len(res) == 0` on a body. -/
def Body.isEmpty : Body → Bool
  | .raw bytes => bytes.data.isEmpty
  | _ => false

/-- An outgoing request: method, URL host and path, query parameters and the
JSON body of a PUT. -/
structure Request where
  Method : String
  Host : String
  Path : String
  Query : List (String × String)
  Body : Option AddKeysRequest

/-- An HTTP response: the status code and what reading the body yields
(`none` when `ioutil.ReadAll` fails). -/
structure Response where
  StatusCode : Int
  Body : Option Body

/-- What `client.Do` yields: a network error, another error, a nil response,
or a response. -/
inductive DoResult where
  | opError
  | otherError
  | nilResponse
  | response (resp : Response)

/-- The world a request is sent into: from its state and the request, the next
state and what `client.Do` yields. -/
abbrev Transport (σ : Type) := σ → Request → σ × DoResult

/-- A base URL together with what `url.Parse` makes of it. -/
structure BaseUrl where
  raw : String
  parseError : Option String
  host : String

/-- The call `json.Unmarshal` into an `ErrorResponse`: the struct afterwards and
whether decoding succeeded. A `message` left out of the document (it is
`omitempty`) leaves the field as it was; the documents of the other structs hold
no field of this one. -/
def unmarshalErrorResponse (body : Body) (into : ErrorResponse) : ErrorResponse × Bool :=
  match body with
  | .raw _ => (into, false)
  | .errorResponse e => (⟨if e.Message = "" then into.Message else e.Message, e.StatusCode⟩, true)
  | .multiKey _ => (into, true)
  | .multiKV _ => (into, true)

/-- The call `json.Unmarshal` into a `dtos.MultiKeyResponse`; `none` when it
fails. -/
def unmarshalMultiKey (body : Body) (into : MultiKeyResponse) : Option MultiKeyResponse :=
  match body with
  | .raw _ => none
  | .errorResponse _ => some into
  | .multiKey r => some r
  | .multiKV r => if r.KVs.isEmpty then some ⟨[]⟩ else none

/-- The call `json.Unmarshal` into a `dtos.MultiKVResponse`; `none` when it
fails. -/
def unmarshalMultiKV (body : Body) (into : MultiKVResponse) : Option MultiKVResponse :=
  match body with
  | .raw _ => none
  | .errorResponse _ => some into
  | .multiKV r => some r
  | .multiKey r => if r.Keys.isEmpty then some ⟨[]⟩ else none

/-- The function `getBody`. -/
def getBody (resp : Response) : Except String Body :=
  match resp.Body with
  | none => .error "failed to get the body from the response"
  | some body => .ok body

/-- The function `makeRequest`, on what `client.Do` yields. -/
def makeRequest (req : Request) : DoResult → Except String Response
  | .opError => .error (req.Host ++ " cannot be reached, this service is not available.")
  | .otherError => .error "failed to send a http request"
  | .nilResponse => .error "the response should not be a nil"
  | .response resp => .ok resp

/-- The function `createRequest`. -/
def createRequest (httpMethod : String) (baseUrl : BaseUrl) (requestPath : String)
    (requestParams : Option (List (String × String))) : Except String Request :=
  match baseUrl.parseError with
  | some err => .error err
  | none => .ok ⟨httpMethod, baseUrl.host, requestPath, requestParams.getD [], none⟩

/-- The function `createRequestWithRawData`; `json.Marshal` succeeds on every
request of the model. -/
def createRequestWithRawData (httpMethod : String) (baseUrl : BaseUrl) (requestPath : String)
    (requestParams : Option (List (String × String))) (data : AddKeysRequest) :
    Except String Request :=
  match baseUrl.parseError with
  | some err => .error ("fail to parse baseUrl, err: " ++ err)
  | none => .ok ⟨httpMethod, baseUrl.host, requestPath, requestParams.getD [], some data⟩

/-- The function `sendRequest`: the body and the error response. -/
def sendRequest {σ : Type} (tr : Transport σ) (req : Request) (s : σ) :
    σ × Option Body × ErrorResponse :=
  let errResponse := ErrorResponse.zero
  let (s, done) := tr s req
  match makeRequest req done with
  | .error _ => (s, none, errResponse)
  | .ok resp =>
    match getBody resp with
    | .error _ => (s, none, errResponse)
    | .ok bodyBytes =>
      if resp.StatusCode ≤ 207 then (s, some bodyBytes, errResponse)
      else
        match unmarshalErrorResponse bodyBytes errResponse with
        | (errResponse, false) => (s, none, errResponse)
        | (errResponse, true) => (s, none, errResponse)

/-- The function `GetRequest`; `returnValuePointer` is the value pointed to
together with the decoder for its type, `none` for a nil pointer. -/
def GetRequest {σ α : Type} (tr : Transport σ)
    (returnValuePointer : Option (α × (Body → α → Option α)))
    (baseUrl : BaseUrl) (requestPath : String)
    (requestParams : Option (List (String × String))) (s : σ) :
    σ × Option α × ErrorResponse :=
  let target := returnValuePointer.map Prod.fst
  match createRequest "GET" baseUrl requestPath requestParams with
  | .error err => (s, target, ⟨err, 500⟩)
  | .ok req =>
    let (s, res, errResp) := sendRequest tr req s
    if errResp.StatusCode ≠ 0 then (s, target, errResp)
    else
      match returnValuePointer, res with
      | none, _ => (s, target, errResp)
      | some _, none => (s, target, errResp)
      | some (value, unmarshal), some body =>
        if body.isEmpty then (s, target, errResp)
        else
          match unmarshal body value with
          | none => (s, target, ⟨"failed to parse the response body", 500⟩)
          | some decoded => (s, some decoded, errResp)

/-- The function `PutRequest`. -/
def PutRequest {σ α : Type} (tr : Transport σ)
    (returnValuePointer : Option (α × (Body → α → Option α)))
    (baseUrl : BaseUrl) (requestPath : String)
    (requestParams : Option (List (String × String))) (data : AddKeysRequest) (s : σ) :
    σ × Option α × ErrorResponse :=
  let target := returnValuePointer.map Prod.fst
  match createRequestWithRawData "PUT" baseUrl requestPath requestParams data with
  | .error err => (s, target, ⟨err, 500⟩)
  | .ok req =>
    let (s, res, errResp) := sendRequest tr req s
    if errResp.StatusCode ≠ 0 then (s, target, errResp)
    else
      match returnValuePointer with
      | none => (s, target, ErrorResponse.zero)
      | some (value, unmarshal) =>
        match res.bind (fun body => unmarshal body value) with
        | none => (s, target, ⟨"failed to parse the response body", 500⟩)
        | some decoded => (s, some decoded, ErrorResponse.zero)

/-! ## api/caller.go and api/kv.go -/

/-- The struct `api.Caller`. -/
structure Caller where
  baseUrl : BaseUrl

/-- The method `Caller.Ping`: the error it returns, `none` for nil. -/
def Caller.Ping {σ : Type} (tr : Transport σ) (c : Caller) (s : σ) : σ × Option String :=
  let (s, _, errResp) := GetRequest (α := Unit) tr none c.baseUrl ApiPingRoute none s
  if errResp.StatusCode ≠ 0 then (s, some errResp.Message) else (s, none)

/-- The method `KV.Get`. -/
def KV.Get {σ : Type} (tr : Transport σ) (c : Caller) (key : String) (s : σ) :
    σ × MultiKVResponse × Option String :=
  let pathParams := [(Plaintext, "true")]
  let url := pathJoin [ApiKVRoute, key]
  let (s, res, errResp) :=
    GetRequest tr (some (⟨[]⟩, unmarshalMultiKV)) c.baseUrl url (some pathParams) s
  if errResp.StatusCode ≠ 0 then (s, res.getD ⟨[]⟩, some errResp.Message)
  else (s, res.getD ⟨[]⟩, none)

/-- The method `KV.Keys`. -/
def KV.Keys {σ : Type} (tr : Transport σ) (c : Caller) (key : String) (s : σ) :
    σ × MultiKeyResponse × Option String :=
  let pathParams := [(KeyOnly, "true")]
  let url := pathJoin [ApiKVRoute, key]
  let (s, res, errResp) :=
    GetRequest tr (some (⟨[]⟩, unmarshalMultiKey)) c.baseUrl url (some pathParams) s
  if errResp.StatusCode = 404 then (s, res.getD ⟨[]⟩, none)
  else if errResp.StatusCode ≠ 0 then (s, res.getD ⟨[]⟩, some errResp.Message)
  else (s, res.getD ⟨[]⟩, none)

/-- The `data` argument of `KV.Put` and `KV.PutKeys`: a byte slice or any other
value. -/
inductive PutData where
  | bytes (b : String)
  | value (v : ConfigValue)

/-- The conversion at the head of `KV.Put` and `KV.PutKeys`: a byte slice
becomes a string. -/
def PutData.toValue : PutData → ConfigValue
  | .bytes b => .scalar (.str b)
  | .value v => v

/-- The method `KV.Put`. -/
def KV.Put {σ : Type} (tr : Transport σ) (c : Caller) (key : String) (data : PutData) (s : σ) :
    σ × Option String :=
  let keyPath := pathJoin [ApiKVRoute, key]
  let request : AddKeysRequest := ⟨data.toValue⟩
  let (s, _, errResp) := PutRequest (α := Unit) tr none c.baseUrl keyPath none request s
  if errResp.StatusCode ≠ 0 then (s, some errResp.Message) else (s, none)

/-- The method `KV.PutKeys`. -/
def KV.PutKeys {σ : Type} (tr : Transport σ) (c : Caller) (key : String) (data : PutData)
    (s : σ) : σ × Option String :=
  let keyPath := pathJoin [ApiKVRoute, key]
  let urlParams := [(Flatten, "true")]
  let request : AddKeysRequest := ⟨data.toValue⟩
  let (s, _, errResp) :=
    PutRequest (α := Unit) tr none c.baseUrl keyPath (some urlParams) request s
  if errResp.StatusCode ≠ 0 then (s, some errResp.Message) else (s, none)

/-! ## mock_keeper.go -/

/-- The read `m[key]` of a Go map held as an association list. -/
def mapGet (key : String) : List (String × KV) → Option KV
  | [] => none
  | (k, v) :: rest => if k = key then some v else mapGet key rest

/-- The write `m[key] = kv` of a Go map held as an association list: the entry
is replaced in place, or added at the end. -/
def mapSet (key : String) (kv : KV) : List (String × KV) → List (String × KV)
  | [] => [(key, kv)]
  | (k, v) :: rest => if k = key then (key, kv) :: rest else (k, v) :: mapSet key kv rest

/-- The struct `MockCoreKeeper`. -/
structure MockCoreKeeper where
  keyValueStore : List (String × KV)

/-- The method `checkForPrefix`. -/
def MockCoreKeeper.checkForPrefix (mock : MockCoreKeeper) (pre : String) : List KV × Bool :=
  let pairs := (mock.keyValueStore.filter (fun e => stringsHasPrefix e.1 pre)).map Prod.snd
  if pairs.length = 0 then ([], false) else (pairs, true)

/-- The method `updateKVStore`. -/
def MockCoreKeeper.updateKVStore (mock : MockCoreKeeper) (key : String) (value : ConfigValue) :
    MockCoreKeeper :=
  match mapGet key mock.keyValueStore with
  | some keyValuePair => ⟨mapSet key { keyValuePair with Value := value } mock.keyValueStore⟩
  | none => ⟨mapSet key ⟨key, value⟩ mock.keyValueStore⟩

/-- The handler that `Start` installs: the store afterwards and the response. A
handler that writes nothing answers 200 with an empty body. -/
def MockCoreKeeper.handle (mock : MockCoreKeeper) (request : Request) :
    MockCoreKeeper × Response :=
  if stringsContains request.Path ApiKVRoute then
    let key := stringsReplaceOnce request.Path (ApiKVRoute ++ "/") ""
    if request.Method = "PUT" then
      let addKeysRequest : AddKeysRequest := request.Body.getD ⟨.scalar .null⟩
      if request.Query.any (fun q => q.1 = Flatten) then
        let kvPairs := convertMapToKVPairs key addKeysRequest.Value
        (kvPairs.foldl (fun m kvPair => m.updateKVStore kvPair.Key (.scalar (.str kvPair.Value)))
          mock, ⟨200, some (.raw "")⟩)
      else
        (mock.updateKVStore key addKeysRequest.Value, ⟨200, some (.raw "")⟩)
    else if request.Method = "GET" then
      let allKeysRequested := request.Query.any (fun q => q.1 = KeyOnly)
      let (pairs, prefixFound) := mock.checkForPrefix key
      if !prefixFound then
        (mock, ⟨404, some (.errorResponse ⟨"query key " ++ key ++ " not found", 404⟩)⟩)
      else if allKeysRequested then
        (mock, ⟨200, some (.multiKey ⟨pairs.map (fun kvPair => kvPair.Key)⟩)⟩)
      else
        (mock, ⟨200, some (.multiKV ⟨pairs.map (fun kvPair => ⟨kvPair.Key, kvPair.Value⟩)⟩)⟩)
    else (mock, ⟨200, some (.raw "")⟩)
  else if stringsContains request.Path ApiPingRoute then
    (mock, ⟨200, some (.raw "")⟩)
  else (mock, ⟨200, some (.raw "")⟩)

/-- The mock server behind a connection that delivers every request and every
response: the server reads the URL path the client wrote, and the JSON encoding
of a value is decoded to the same value. The failures of a connection are the
other outcomes of `DoResult`. -/
def mockTransport : Transport MockCoreKeeper :=
  fun mock req => let (mock, resp) := mock.handle req; (mock, .response resp)

/-- The key the mock server reads from a request path, when the path is one of
the key-value route. -/
def routedKey (requestPath : String) : Option String :=
  if stringsContains requestPath ApiKVRoute then
    some (stringsReplaceOnce requestPath (ApiKVRoute ++ "/") "")
  else none

/-! ## client.go -/

/-- The struct `keeperClient` (the channel `watchingDone` left aside); its field
`keeperClient`, the caller, is `caller` here. -/
structure keeperClient where
  keeperUrl : String
  caller : Caller
  configBasePath : String

/-- The method `fullPath`. -/
def keeperClient.fullPath (client : keeperClient) (name : String) : String :=
  pathJoin [client.configBasePath, name]

/-- The method `IsAlive`. -/
def keeperClient.IsAlive {σ : Type} (tr : Transport σ) (client : keeperClient) (s : σ) :
    σ × Bool :=
  let (s, err) := client.caller.Ping tr s
  if err.isSome then (s, false) else (s, true)

/-- The method `HasConfiguration`. -/
def keeperClient.HasConfiguration {σ : Type} (tr : Transport σ) (client : keeperClient)
    (s : σ) : σ × Bool × Option String :=
  let (s, resp, err) := KV.Keys tr client.caller client.configBasePath s
  match err with
  | some e => (s, false, some ("checking configuration existence from Core Keeper failed: " ++ e))
  | none => if resp.Keys.length = 0 then (s, false, none) else (s, true, none)

/-- The method `ConfigurationValueExists`. -/
def keeperClient.ConfigurationValueExists {σ : Type} (tr : Transport σ) (client : keeperClient)
    (name : String) (s : σ) : σ × Bool × Option String :=
  let keyPath := client.fullPath name
  let (s, res, err) := KV.Keys tr client.caller keyPath s
  match err with
  | some e => (s, false, some ("checking configuration existence from Core Keeper failed: " ++ e))
  | none => if res.Keys.length = 0 then (s, false, none) else (s, true, none)

/-- The method `PutConfigurationValue`; the byte slice `value` is held as the
text it spells, so byte slices that are not valid UTF-8 (which `json.Marshal`
rewrites) have no value here. -/
def keeperClient.PutConfigurationValue {σ : Type} (tr : Transport σ) (client : keeperClient)
    (name : String) (value : String) (s : σ) : σ × Option String :=
  let keyPath := client.fullPath name
  let (s, err) := KV.Put tr client.caller keyPath (.bytes value) s
  match err with
  | some e => (s, some ("unable to JSON marshal configStruct, err: " ++ e))
  | none => (s, none)

/-- The loop of `PutConfiguration` over the flattened pairs, with its early
returns. -/
def keeperClient.putAbsent {σ : Type} (tr : Transport σ) (client : keeperClient) :
    List pair → σ → σ × Option String
  | [], s => (s, none)
  | kv :: rest, s =>
    match client.ConfigurationValueExists tr kv.Key s with
    | (s, _, some err) => (s, some err)
    | (s, found, none) =>
      if !found then
        match client.PutConfigurationValue tr kv.Key kv.Value s with
        | (s, some err) => (s, some err)
        | (s, none) => putAbsent tr client rest s
      else putAbsent tr client rest s

/-- The method `PutConfiguration`. -/
def keeperClient.PutConfiguration {σ : Type} (tr : Transport σ) (client : keeperClient)
    (config : ConfigValue) (overwrite : Bool) (s : σ) : σ × Option String :=
  if overwrite then
    match KV.PutKeys tr client.caller client.configBasePath (.value config) s with
    | (s, some err) =>
        (s, some ("error occurred while creating/updating configuration, error: " ++ err))
    | (s, none) => (s, none)
  else
    let kvPairs := convertMapToKVPairs "" config
    client.putAbsent tr kvPairs s

/-- The store key the mock server reads from the request the client sends for
the leaf `name`, when the request path is one of the key-value route. -/
def keeperClient.storeKey (client : keeperClient) (name : String) : Option String :=
  routedKey (pathJoin [ApiKVRoute, client.fullPath name])

/-- A path element that `path.Clean` keeps as it is: not empty, not `.`, not
`..`, and free of the slash. -/
def normalElem (e : List Char) : Bool :=
  !e.isEmpty && e != ['.'] && e != ['.', '.'] && !e.contains '/'

/-- A relative path in the form `path.Clean` leaves unchanged: elements kept as
they are, joined by single slashes. -/
def cleanRelative (p : String) : Bool := (p.data.splitOn '/').all normalElem

/-- A client with base path `a` and a base URL that parses. -/
def sampleClient : keeperClient :=
  ⟨"http://localhost:59890", ⟨⟨"http://localhost:59890", none, "localhost:59890"⟩⟩, "a"⟩

/-- A client whose base URL does not parse. -/
def badUrlClient : keeperClient :=
  ⟨"http://local host", ⟨⟨"http://local host", some "invalid character in host name", ""⟩⟩, "a"⟩

/-- A store holding the key `a/b` only. -/
def sampleStore : MockCoreKeeper := ⟨[("a/b", ⟨"a/b", .scalar (.str "0")⟩)]⟩

/-- A store holding the key `a/bc` only. -/
def longerKeyStore : MockCoreKeeper := ⟨[("a/bc", ⟨"a/bc", .scalar (.str "0")⟩)]⟩

/-- The configuration `{b: 1, c: 2}`. -/
def sampleConfig : ConfigValue :=
  .object [("b", .scalar (.int 1)), ("c", .scalar (.int 2))]

/-- A transport on which every exchange ends as `outcome`, whatever is sent. -/
def constTransport (outcome : DoResult) : Transport Unit := fun s _ => (s, outcome)

/-- A caller whose base URL parses. -/
def callerOf (raw host : String) : Caller := ⟨⟨raw, none, host⟩⟩

/-! ## decode (decode.go is not among the sources) -/

/-- Modelled from the spec: the `DecodeError` that the function `decode`
of decode.go, which is not among the sources, fails with; it names the
offending path and the expected type. -/
structure DecodeError where
  path : String
  expected : String
deriving DecidableEq, Repr

/-- Modelled from the spec: the number a non-empty string of decimal
digits stands for (the integer parse of `decode`). -/
def parseDigits (cs : List Char) : Option Nat :=
  if cs.isEmpty || !cs.all (fun c => c.isDigit) then none
  else some (cs.foldl (fun acc c => 10 * acc + digitVal c) 0)

/-- Modelled from the spec: the integer parse of `decode`, decimal
digits with an optional leading minus sign. -/
def parseInt (s : String) : Option Int :=
  match s.data with
  | '-' :: ds => (parseDigits ds).map (fun n => -(n : Int))
  | ds => (parseDigits ds).map (fun n => (n : Int))

/-- Modelled from the spec: the type coercion of `decode`: the stored
string is parsed according to the type of the target leaf (the scalar it holds);
a parse failure is a `DecodeError`; a nil leaf has no declared type and is left
as it is. -/
def coerce (key : String) (leaf : Scalar) (value : String) : Except DecodeError Scalar :=
  match leaf with
  | .str _ => .ok (.str value)
  | .int _ =>
    match parseInt value with
    | some i => .ok (.int i)
    | none => .error ⟨key, "integer"⟩
  | .bool _ =>
    if value = "true" then .ok (.bool true)
    else if value = "false" then .ok (.bool false)
    else .error ⟨key, "boolean"⟩
  | .null => .ok .null

mutual
/-- Modelled from the spec: the walk of `decode` through the target, segment by
segment: a field name selects the field of that name, a decimal index the
element at that position; the leaf the path ends at takes the coerced value; a
path that addresses nothing in the target's shape is ignored. -/
def setPath (key value : String) : ConfigValue → List String → Except DecodeError ConfigValue
  | .scalar leaf, [] =>
    match coerce key leaf value with
    | .ok s => .ok (.scalar s)
    | .error e => .error e
  | .scalar leaf, _ :: _ => .ok (.scalar leaf)
  | .sequence items, [] => .ok (.sequence items)
  | .sequence items, seg :: rest =>
    match setItem key value seg rest 0 items with
    | .ok changed => .ok (.sequence changed)
    | .error e => .error e
  | .object fields, [] => .ok (.object fields)
  | .object fields, seg :: rest =>
    match setField key value seg rest fields with
    | .ok changed => .ok (.object changed)
    | .error e => .error e
/-- Modelled from the spec: the step of the walk into the element whose decimal
index is `seg`. -/
def setItem (key value seg : String) (rest : List String) (index : Nat) :
    List ConfigValue → Except DecodeError (List ConfigValue)
  | [] => .ok []
  | item :: more =>
    if strconvItoa index = seg then
      match setPath key value item rest with
      | .ok changed => .ok (changed :: more)
      | .error e => .error e
    else
      match setItem key value seg rest (index + 1) more with
      | .ok changed => .ok (item :: changed)
      | .error e => .error e
/-- Modelled from the spec: the step of the walk into the field named `seg`. -/
def setField (key value seg : String) (rest : List String) :
    List (String × ConfigValue) → Except DecodeError (List (String × ConfigValue))
  | [] => .ok []
  | (name, item) :: more =>
    if name = seg then
      match setPath key value item rest with
      | .ok changed => .ok ((name, changed) :: more)
      | .error e => .error e
    else
      match setField key value seg rest more with
      | .ok changed => .ok ((name, item) :: changed)
      | .error e => .error e
end

/-- Modelled from the spec: the segments of a relative key path: what follows
the stripped prefix, without the delimiter that joined it to the prefix, split
at the delimiter. -/
def segmentsOf (rel : List Char) : List String :=
  match rel with
  | [] => []
  | c :: r =>
    if c = '/' then (r.splitOn '/').map String.mk
    else ((c :: r).splitOn '/').map String.mk

/-- Modelled from the spec: the relative key path of `key` under the prefix `p`
(`none` when the key is not under the prefix). -/
def relativePath (p key : String) : Option (List String) :=
  if p.data.isPrefixOf key.data then some (segmentsOf (key.data.drop p.data.length))
  else none

/-- Modelled from the spec: the function `decode` of decode.go, which is not
among the sources: every pair is stripped of the prefix and walked into the
target; what no pair addresses stays as it was (a merge), unknown paths are
ignored, the first coercion failure is returned. -/
def decode (p : String) : List pair → ConfigValue → Except DecodeError ConfigValue
  | [], target => .ok target
  | kv :: rest, target =>
    match relativePath p kv.Key with
    | none => decode p rest target
    | some segs =>
      match setPath kv.Key kv.Value target segs with
      | .ok changed => decode p rest changed
      | .error e => .error e

/-- The zero value of the type of a scalar. -/
def freshScalar : Scalar → Scalar
  | .str _ => .str ""
  | .int _ => .int 0
  | .bool _ => .bool false
  | .null => .null

mutual
/-- A fresh target shaped like the value: the same maps and sequences, every
leaf at the zero value of its type. -/
def fresh : ConfigValue → ConfigValue
  | .scalar s => .scalar (freshScalar s)
  | .sequence items => .sequence (freshItems items)
  | .object fields => .object (freshFields fields)
/-- Fresh targets for the elements of a sequence. -/
def freshItems : List ConfigValue → List ConfigValue
  | [] => []
  | item :: rest => fresh item :: freshItems rest
/-- Fresh targets for the fields of a map. -/
def freshFields : List (String × ConfigValue) → List (String × ConfigValue)
  | [] => []
  | (name, item) :: rest => (name, fresh item) :: freshFields rest
end

/-- A tree with a delimiter in a field name: `{"a/b": 1}`. -/
def delimiterNameTree : ConfigValue := .object [("a/b", .scalar (.int 1))]

/-- The walk of `decode` for a list of (key, value, segments) triples, one after
the other. -/
def applyAll : List (String × String × List String) → ConfigValue →
    Except DecodeError ConfigValue
  | [], target => .ok target
  | i :: rest, target =>
    match setPath i.1 i.2.1 target i.2.2 with
    | .ok changed => applyAll rest changed
    | .error e => .error e

/-- The triple that stands for the leaf `l` when keys are formed by `kf`. -/
def leafStep (kf : List String → String) (l : List String × Scalar) :
    String × String × List String :=
  (kf l.1, castToString l.2, l.1)

/-! ## The canonical strings of the specification -/

/-- The decimal rendering of an integer: a minus sign for a negative number,
then the decimal digits of its magnitude. -/
def decimal (i : Int) : String :=
  if i < 0 then "-" ++ Nat.repr i.natAbs else Nat.repr i.natAbs

/-- The canonical string of a scalar in the words of the specification:
`true` and `false` for the booleans, the empty string for nil, a string itself,
the decimal rendering of an integer. -/
def canon : Scalar → String
  | .bool true => "true"
  | .bool false => "false"
  | .null => ""
  | .str s => s
  | .int i => decimal i

/-! ## Single-leaf read -/

/-- Insertion of a rendered map entry into entries sorted by key. -/
def insertByKey (e : String × String) : List (String × String) → List (String × String)
  | [] => [e]
  | x :: rest => if e.1 < x.1 then e :: x :: rest else x :: insertByKey e rest

/-- Rendered map entries sorted by key, as `fmt` prints a map. -/
def sortByKey : List (String × String) → List (String × String)
  | [] => []
  | e :: rest => insertByKey e (sortByKey rest)

mutual
/-- The Go call `fmt.Sprintf("%v", value)`: a slice as `[e1 e2]`, a map as
`map[k1:v1 k2:v2]` with sorted keys, nil as `<nil>`. -/
def fmtSprintV : ConfigValue → String
  | .scalar (.str s) => s
  | .scalar (.int i) => toString i
  | .scalar (.bool b) => if b then "true" else "false"
  | .scalar .null => "<nil>"
  | .sequence items => "[" ++ " ".intercalate (fmtItems items) ++ "]"
  | .object fields =>
      "map[" ++ " ".intercalate ((sortByKey (fmtFields fields)).map (fun e => e.1 ++ ":" ++ e.2))
        ++ "]"
/-- The elements of a slice as `fmt` prints them. -/
def fmtItems : List ConfigValue → List String
  | [] => []
  | item :: rest => fmtSprintV item :: fmtItems rest
/-- The entries of a map as `fmt` prints them, by key. -/
def fmtFields : List (String × ConfigValue) → List (String × String)
  | [] => []
  | (name, item) :: rest => (name, fmtSprintV item) :: fmtFields rest
end

/-- The type switch of `GetConfigurationValue` on the stored value, for the
values of the embedding: the `float32` and `float64` cases of the switch, which
a number that went through JSON reaches, have no value here. -/
def valueString : ConfigValue → String
  | .scalar (.str value) => value
  | .scalar (.int value) => toString value
  | .scalar (.bool value) => if value then "true" else "false"
  | .scalar .null => ""
  | value => fmtSprintV value

/-- The method `GetConfigurationValue`: the bytes (`none` for nil) and the
error. -/
def keeperClient.GetConfigurationValue {σ : Type} (tr : Transport σ) (client : keeperClient)
    (name : String) (s : σ) : σ × Option String × Option String :=
  let keyPath := client.fullPath name
  let (s, resp, err) := KV.Get tr client.caller keyPath s
  match err with
  | some e => (s, none, some e)
  | none =>
    match resp.KVs with
    | [] => (s, none, some (name ++ " configuration not found"))
    | first :: _ => (s, some (valueString first.Value), none)

/-! ## client.go: the loop of `WatchForChanges` -/

/-- The fields of `msgTypes.MessageEnvelope` that the loop reads. -/
structure MessageEnvelope where
  ContentType : String
  Payload : String

/-- What the loop uses that is not among the sources, for a target of type `τ`:
the function `decode` (the target afterwards and the error), `json.Unmarshal`
into a `dtos.KV` (`none` when it fails), and the constant
`http.ContentTypeJSON`. -/
structure WatchEnv (τ : Type) where
  decode : String → List KV → τ → τ × Option String
  unmarshalKV : String → Option KV
  ContentTypeJSON : String

/-- A value pushed on the update channel: a string, or the target as it is at
that moment. -/
inductive Update (τ : Type) where
  | text (s : String)
  | configuration (c : τ)

/-- What the `select` of the loop receives: the stop signal, an error of the
subscription, or a message. -/
inductive WatchEvent where
  | watchingDone
  | watchError (e : String)
  | message (msgEnvelope : MessageEnvelope)

/-- The state of the watch goroutine: the flag `isFirstUpdate`, the target
`configuration`, what has been pushed on the two channels (oldest first), the
calls of `decode` made so far, and whether the goroutine has returned. -/
structure WatchState (τ : Type) where
  isFirstUpdate : Bool
  configuration : τ
  updateChannel : List (Update τ)
  errorChannel : List String
  decoded : List (String × KV)
  returned : Bool

/-- The state in which the goroutine enters its loop. -/
def watchStart {τ : Type} (configuration : τ) : WatchState τ :=
  ⟨true, configuration, [], [], [], false⟩

/-- One round of the `for`/`select` loop of `WatchForChanges`; once the
goroutine has returned nothing is received any more. -/
def watchStep {τ : Type} (env : WatchEnv τ) (client : keeperClient) (waitKey : String)
    (s : WatchState τ) (event : WatchEvent) : WatchState τ :=
  if s.returned then s
  else
    match event with
    | .watchingDone => { s with returned := true }
    | .watchError e => { s with errorChannel := s.errorChannel ++ [e] }
    | .message msgEnvelope =>
      if s.isFirstUpdate then
        { s with
          isFirstUpdate := false
          updateChannel :=
            s.updateChannel ++ [.text "watch config change subscription established"] }
      else if msgEnvelope.ContentType ≠ env.ContentTypeJSON then s
      else
        match env.unmarshalKV msgEnvelope.Payload with
        | none => s
        | some respKV =>
          let keyPrefix := pathJoin [client.configBasePath, waitKey]
          let configuration := (env.decode keyPrefix [respKV] s.configuration).1
          { s with
            configuration := configuration
            updateChannel := s.updateChannel ++ [.configuration configuration]
            decoded := s.decoded ++ [(keyPrefix, respKV)] }

/-- The loop over the events it receives, in order. -/
def watchLoop {τ : Type} (env : WatchEnv τ) (client : keeperClient) (waitKey : String)
    (s : WatchState τ) (events : List WatchEvent) : WatchState τ :=
  events.foldl (watchStep env client waitKey) s

/-- Whether an event is a message. -/
def WatchEvent.isMessage : WatchEvent → Bool
  | .message _ => true
  | _ => false

/-- An environment for examples: the target is a list of the pairs decoded so
far, every payload is a pair with the payload as key. -/
def sampleEnv : WatchEnv (List KV) :=
  ⟨fun _ pairs target => (target ++ pairs, none), fun payload => some ⟨payload, .scalar .null⟩,
    "application/json"⟩

/-! ## A connection that can fail -/

/-- The mock server behind a connection that refuses some requests: the state
holds the store and, for the coming requests in order, whether the connection
is refused (`true`, then `client.Do` fails with a network error and the server
sees nothing) or the request is delivered (`false`); once the list is used up
every request is delivered. -/
def flakyTransport : Transport (MockCoreKeeper × List Bool) :=
  fun s req =>
    match s.2 with
    | true :: rest => ((s.1, rest), .opError)
    | false :: rest => (((s.1.handle req).1, rest), .response (s.1.handle req).2)
    | [] => (((s.1.handle req).1, []), .response (s.1.handle req).2)

/-- A store holding only the key `ab/c`, a key of another service. -/
def otherServiceStore : MockCoreKeeper := ⟨[("ab/c", ⟨"ab/c", .scalar (.str "0")⟩)]⟩

/-- A client with the empty base path. -/
def emptyBaseClient : keeperClient :=
  ⟨"http://localhost:59890", ⟨⟨"http://localhost:59890", none, "localhost:59890"⟩⟩, ""⟩

/-- The configuration `{bc: 2, b: 1}`, the entry `bc` met first. -/
def nestedNameConfig : ConfigValue :=
  .object [("bc", .scalar (.int 2)), ("b", .scalar (.int 1))]

/-- The value stored under a key, as text; `none` when the key is absent. -/
def storedText (key : String) (mock : MockCoreKeeper) : Option String :=
  (mapGet key mock.keyValueStore).map (fun kv => valueString kv.Value)

/-! # Theorems -/

/-! ## Flattening: keys -/

theorem pathPre_append (path seg : String) : pathPre path ++ seg = childPath path seg := by
  unfold pathPre childPath
  split <;> simp [String.append_assoc]

theorem data_eq_nil_iff (s : String) : s.data = [] ↔ s = "" := by
  constructor
  · intro h
    exact String.ext h
  · intro h
    rw [h]

theorem childPath_ne_empty (path seg : String) (h : path ≠ "") : childPath path seg ≠ "" := by
  unfold childPath
  rw [if_neg h]
  intro hc
  apply h
  have hd := congrArg String.data hc
  simp only [String.data_append] at hd
  have h1 : path.data = [] := by
    cases hp : path.data with
    | nil => rfl
    | cons c cs => rw [hp] at hd; simp at hd
  exact (data_eq_nil_iff path).mp h1

mutual
theorem convert_eq_leaves (path : String) :
    ∀ v : ConfigValue, convertMapToKVPairs path v = (leaves v).map (leafPair path)
  | .scalar s => by simp [convertMapToKVPairs, leaves, leafPair]
  | .sequence items => by
      rw [convertMapToKVPairs, leaves]
      exact convertItems_eq_leaves path 0 items
  | .object fields => by
      rw [convertMapToKVPairs, leaves]
      exact convertFields_eq_leaves path fields
theorem convertItems_eq_leaves (path : String) (index : Nat) :
    ∀ items : List ConfigValue,
      convertItems (pathPre path) index items = (leavesItems index items).map (leafPair path)
  | [] => by simp [convertItems, leavesItems]
  | item :: rest => by
      rw [convertItems, leavesItems, List.map_append, List.map_map,
        convert_eq_leaves (pathPre path ++ strconvItoa index) item,
        convertItems_eq_leaves path (index + 1) rest, pathPre_append]
      rfl
theorem convertFields_eq_leaves (path : String) :
    ∀ fields : List (String × ConfigValue),
      convertFields (pathPre path) fields = (leavesFields fields).map (leafPair path)
  | [] => by simp [convertFields, leavesFields]
  | (name, item) :: rest => by
      rw [convertFields, leavesFields, List.map_append, List.map_map,
        convert_eq_leaves (pathPre path ++ name) item,
        convertFields_eq_leaves path rest, pathPre_append]
      rfl
end

theorem foldl_childPath_eq_delimitedKey (segs : List String) :
    ∀ p : String, p ≠ "" → segs.foldl childPath p = delimitedKey p segs := by
  induction segs with
  | nil =>
      intro p _
      rfl
  | cons seg rest ih =>
      intro p hp
      rw [List.foldl_cons, ih _ (childPath_ne_empty p seg hp)]
      simp [delimitedKey, childPath, hp]

mutual
theorem length_convert (path : String) :
    ∀ v : ConfigValue, (convertMapToKVPairs path v).length = countLeaves v
  | .scalar s => by simp [convertMapToKVPairs, countLeaves]
  | .sequence items => by
      rw [convertMapToKVPairs, countLeaves]
      exact length_convertItems (pathPre path) 0 items
  | .object fields => by
      rw [convertMapToKVPairs, countLeaves]
      exact length_convertFields (pathPre path) fields
theorem length_convertItems (pre : String) (index : Nat) :
    ∀ items : List ConfigValue, (convertItems pre index items).length = countItems items
  | [] => by simp [convertItems, countItems]
  | item :: rest => by
      rw [convertItems, countItems, List.length_append, length_convert _ item,
        length_convertItems pre (index + 1) rest]
theorem length_convertFields (pre : String) :
    ∀ fields : List (String × ConfigValue), (convertFields pre fields).length = countFields fields
  | [] => by simp [convertFields, countFields]
  | (name, item) :: rest => by
      rw [convertFields, countFields, List.length_append, length_convert _ item,
        length_convertFields pre rest]
end

/-! ## Decimal rendering of indices -/

theorem digitVal_digitChar (k : Nat) (h : k < 10) : digitVal (Nat.digitChar k) = k := by
  interval_cases k <;> rfl

theorem digitChar_ne_slash (k : Nat) (h : k < 10) : Nat.digitChar k ≠ '/' := by
  interval_cases k <;> decide

theorem foldl_toDigitsCore (fuel : Nat) :
    ∀ (n : Nat) (ds : List Char), n < fuel →
      (Nat.toDigitsCore 10 fuel n ds).foldl (fun acc c => 10 * acc + digitVal c) 0
        = ds.foldl (fun acc c => 10 * acc + digitVal c) n := by
  induction fuel with
  | zero => intro n ds h; omega
  | succ fuel ih =>
      intro n ds h
      rw [Nat.toDigitsCore]
      by_cases h0 : n / 10 = 0
      · simp only [h0, if_true, List.foldl_cons]
        rw [digitVal_digitChar _ (Nat.mod_lt _ (by decide))]
        have : n % 10 = n := by omega
        simp [this]
      · simp only [h0, if_false]
        rw [ih (n / 10) _ (by omega), List.foldl_cons,
          digitVal_digitChar _ (Nat.mod_lt _ (by decide))]
        have : 10 * (n / 10) + n % 10 = n := Nat.div_add_mod n 10
        rw [this]

theorem strconvItoa_injective (a b : Nat) (h : strconvItoa a = strconvItoa b) : a = b := by
  have hd : Nat.toDigits 10 a = Nat.toDigits 10 b := by
    have := congrArg String.data h
    simpa [strconvItoa, Nat.repr, List.asString] using this
  have ha := foldl_toDigitsCore (a + 1) a [] (Nat.lt_succ_self a)
  have hb := foldl_toDigitsCore (b + 1) b [] (Nat.lt_succ_self b)
  simp only [List.foldl_nil] at ha hb
  rw [← ha, ← hb]
  exact congrArg _ hd

theorem mem_toDigitsCore (fuel : Nat) :
    ∀ (n : Nat) (ds : List Char) (c : Char),
      c ∈ Nat.toDigitsCore 10 fuel n ds → c ∈ ds ∨ c ≠ '/' := by
  induction fuel with
  | zero => intro n ds c h; left; simpa [Nat.toDigitsCore] using h
  | succ fuel ih =>
      intro n ds c h
      rw [Nat.toDigitsCore] at h
      by_cases h0 : n / 10 = 0
      · simp only [h0, if_true, List.mem_cons] at h
        rcases h with h | h
        · right; rw [h]; exact digitChar_ne_slash _ (Nat.mod_lt _ (by decide))
        · left; exact h
      · simp only [h0, if_false] at h
        rcases ih _ _ _ h with h | h
        · rcases List.mem_cons.mp h with h | h
          · right; rw [h]; exact digitChar_ne_slash _ (Nat.mod_lt _ (by decide))
          · left; exact h
        · right; exact h

theorem toDigitsCore_ne_nil (fuel : Nat) :
    ∀ (n : Nat) (ds : List Char), ds ≠ [] → Nat.toDigitsCore 10 fuel n ds ≠ [] := by
  induction fuel with
  | zero => intro n ds h; simpa [Nat.toDigitsCore] using h
  | succ fuel ih =>
      intro n ds _
      rw [Nat.toDigitsCore]
      by_cases h0 : n / 10 = 0
      · simp [h0]
      · simp only [h0, if_false]
        exact ih _ _ (by simp)

theorem noDelimiter_strconvItoa (n : Nat) : noDelimiter (strconvItoa n) = true := by
  simp only [noDelimiter, strconvItoa, Nat.repr, List.asString, Bool.not_eq_true',
    List.contains_eq_any_beq, List.any_eq_false, beq_iff_eq]
  intro c hc
  rcases mem_toDigitsCore _ _ _ _ hc with h | h
  · simp at h
  · exact fun e => h e.symm

theorem nonEmpty_strconvItoa (n : Nat) : nonEmpty (strconvItoa n) = true := by
  simp only [nonEmpty, strconvItoa, Nat.repr, List.asString, Nat.toDigits, Nat.toDigitsCore]
  by_cases h0 : n / 10 = 0
  · simp [h0]
  · simp only [h0, if_false, Bool.not_eq_true', List.isEmpty_eq_false]
    exact toDigitsCore_ne_nil _ _ _ (by simp)

/-! ## Keys as character lists -/

theorem delimitedKey_data (segs : List String) :
    ∀ p : String, (delimitedKey p segs).data = p.data ++ encodeSegments segs := by
  induction segs with
  | nil => intro p; simp [delimitedKey, encodeSegments]
  | cons s rest ih =>
      intro p
      have h := ih (p ++ KeyDelimiter ++ s)
      simp only [delimitedKey, List.foldl_cons] at h ⊢
      rw [h]
      simp [encodeSegments, KeyDelimiter, String.data_append]

theorem encodeSegments_head (segs : List String) :
    encodeSegments segs = [] ∨ ∃ r, encodeSegments segs = '/' :: r := by
  cases segs with
  | nil => left; rfl
  | cons s rest => right; exact ⟨_, rfl⟩

theorem split_at_delimiter (s : List Char) :
    ∀ (s2 t t2 : List Char), '/' ∉ s → '/' ∉ s2 →
      (t = [] ∨ ∃ r, t = '/' :: r) → (t2 = [] ∨ ∃ r, t2 = '/' :: r) →
      s ++ t = s2 ++ t2 → s = s2 ∧ t = t2 := by
  induction s with
  | nil =>
      intro s2 t t2 _ h2 ht _ h
      cases s2 with
      | nil => exact ⟨rfl, by simpa using h⟩
      | cons c cs =>
          exfalso
          simp only [List.nil_append, List.cons_append] at h
          rcases ht with ht | ⟨r, ht⟩
          · rw [ht] at h; cases h
          · rw [ht] at h
            injection h with hc _
            exact h2 (by rw [← hc]; simp)
  | cons c cs ih =>
      intro s2 t t2 h1 h2 ht ht2 h
      cases s2 with
      | nil =>
          exfalso
          simp only [List.nil_append, List.cons_append] at h
          rcases ht2 with ht2 | ⟨r, ht2⟩
          · rw [ht2] at h; cases h
          · rw [ht2] at h
            injection h with hc _
            exact h1 (by rw [hc]; simp)
      | cons c2 cs2 =>
          simp only [List.cons_append] at h
          injection h with hc hrest
          have := ih cs2 t t2 (fun hm => h1 (List.mem_cons_of_mem _ hm))
            (fun hm => h2 (List.mem_cons_of_mem _ hm)) ht ht2 hrest
          exact ⟨by rw [hc, this.1], this.2⟩

theorem noDelimiter_iff (s : String) : noDelimiter s = true ↔ '/' ∉ s.data := by
  simp [noDelimiter]

theorem encodeSegments_injective (segs : List String) :
    ∀ segs2 : List String, (∀ s ∈ segs, noDelimiter s = true) →
      (∀ s ∈ segs2, noDelimiter s = true) →
      encodeSegments segs = encodeSegments segs2 → segs = segs2 := by
  induction segs with
  | nil =>
      intro segs2 _ _ h
      cases segs2 with
      | nil => rfl
      | cons s rest => simp [encodeSegments] at h
  | cons s rest ih =>
      intro segs2 h1 h2 h
      cases segs2 with
      | nil => simp [encodeSegments] at h
      | cons s2 rest2 =>
          simp only [encodeSegments, List.cons.injEq, true_and] at h
          have hs := split_at_delimiter s.data s2.data _ _
            ((noDelimiter_iff s).mp (h1 s (by simp)))
            ((noDelimiter_iff s2).mp (h2 s2 (by simp)))
            (encodeSegments_head rest) (encodeSegments_head rest2) h
          have hr := ih rest2 (fun x hx => h1 x (List.mem_cons_of_mem _ hx))
            (fun x hx => h2 x (List.mem_cons_of_mem _ hx)) hs.2
          rw [String.ext hs.1, hr]

theorem key_injective_of_ne_empty (p : String) (hp : p ≠ "") (segs segs2 : List String)
    (h1 : ∀ s ∈ segs, noDelimiter s = true) (h2 : ∀ s ∈ segs2, noDelimiter s = true)
    (h : segs.foldl childPath p = segs2.foldl childPath p) : segs = segs2 := by
  rw [foldl_childPath_eq_delimitedKey segs p hp,
    foldl_childPath_eq_delimitedKey segs2 p hp] at h
  have hd := congrArg String.data h
  rw [delimitedKey_data, delimitedKey_data] at hd
  exact encodeSegments_injective segs segs2 h1 h2 (List.append_cancel_left hd)

theorem nonEmpty_iff (s : String) : nonEmpty s = true ↔ s ≠ "" := by
  rw [Ne, ← data_eq_nil_iff]
  simp [nonEmpty]

theorem foldl_childPath_empty_cons (s : String) (rest : List String) (hs : s ≠ "") :
    ((s :: rest).foldl childPath "").data = s.data ++ encodeSegments rest := by
  rw [List.foldl_cons]
  have : childPath "" s = s := by simp [childPath]
  rw [this, foldl_childPath_eq_delimitedKey rest s hs, delimitedKey_data]

theorem key_injective_of_nonEmpty (segs segs2 : List String)
    (h1 : ∀ s ∈ segs, noDelimiter s = true) (h2 : ∀ s ∈ segs2, noDelimiter s = true)
    (e1 : ∀ s ∈ segs, nonEmpty s = true) (e2 : ∀ s ∈ segs2, nonEmpty s = true)
    (h : segs.foldl childPath "" = segs2.foldl childPath "") : segs = segs2 := by
  have hd := congrArg String.data h
  cases segs with
  | nil =>
      cases segs2 with
      | nil => rfl
      | cons s2 r2 =>
          exfalso
          have hs2 := (nonEmpty_iff s2).mp (e2 s2 (by simp))
          rw [foldl_childPath_empty_cons s2 r2 hs2] at hd
          simp only [List.foldl_nil] at hd
          have : s2.data = [] := (List.append_eq_nil.mp hd.symm).1
          exact hs2 ((data_eq_nil_iff s2).mp this)
  | cons s r =>
      have hs := (nonEmpty_iff s).mp (e1 s (by simp))
      cases segs2 with
      | nil =>
          exfalso
          rw [foldl_childPath_empty_cons s r hs] at hd
          simp only [List.foldl_nil] at hd
          have : s.data = [] := (List.append_eq_nil.mp hd).1
          exact hs ((data_eq_nil_iff s).mp this)
      | cons s2 r2 =>
          have hs2 := (nonEmpty_iff s2).mp (e2 s2 (by simp))
          rw [foldl_childPath_empty_cons s r hs, foldl_childPath_empty_cons s2 r2 hs2] at hd
          have hsp := split_at_delimiter s.data s2.data _ _
            ((noDelimiter_iff s).mp (h1 s (by simp)))
            ((noDelimiter_iff s2).mp (h2 s2 (by simp)))
            (encodeSegments_head r) (encodeSegments_head r2) hd
          have hr := encodeSegments_injective r r2
            (fun x hx => h1 x (List.mem_cons_of_mem _ hx))
            (fun x hx => h2 x (List.mem_cons_of_mem _ hx)) hsp.2
          rw [String.ext hsp.1, hr]

/-! ## Leaf positions of well-formed values -/

mutual
theorem segments_of_leaves (ok : String → Bool) (hok : ∀ n, ok (strconvItoa n) = true) :
    ∀ v : ConfigValue, namesAll ok v = true → ∀ l ∈ leaves v, ∀ s ∈ l.1, ok s = true
  | .scalar _, _ => by
      intro l hl s hs
      simp only [leaves, List.mem_singleton] at hl
      rw [hl] at hs
      simp at hs
  | .sequence items, h => by
      rw [leaves]
      rw [namesAll] at h
      exact segments_of_leavesItems ok hok 0 items h
  | .object fields, h => by
      rw [leaves]
      rw [namesAll] at h
      exact segments_of_leavesFields ok hok fields h
theorem segments_of_leavesItems (ok : String → Bool) (hok : ∀ n, ok (strconvItoa n) = true)
    (index : Nat) :
    ∀ items : List ConfigValue, namesAllItems ok items = true →
      ∀ l ∈ leavesItems index items, ∀ s ∈ l.1, ok s = true
  | [], _ => by
      intro l hl
      simp [leavesItems] at hl
  | item :: rest, h => by
      intro l hl s hs
      rw [namesAllItems, Bool.and_eq_true] at h
      rw [leavesItems, List.mem_append] at hl
      rcases hl with hl | hl
      · rcases List.mem_map.mp hl with ⟨l0, hl0, rfl⟩
        rcases List.mem_cons.mp hs with hs | hs
        · rw [hs]; exact hok index
        · exact segments_of_leaves ok hok item h.1 l0 hl0 s hs
      · exact segments_of_leavesItems ok hok (index + 1) rest h.2 l hl s hs
theorem segments_of_leavesFields (ok : String → Bool) (hok : ∀ n, ok (strconvItoa n) = true) :
    ∀ fields : List (String × ConfigValue), namesAllFields ok fields = true →
      ∀ l ∈ leavesFields fields, ∀ s ∈ l.1, ok s = true
  | [], _ => by
      intro l hl
      simp [leavesFields] at hl
  | (name, item) :: rest, h => by
      intro l hl s hs
      rw [namesAllFields, Bool.and_eq_true, Bool.and_eq_true] at h
      rw [leavesFields, List.mem_append] at hl
      rcases hl with hl | hl
      · rcases List.mem_map.mp hl with ⟨l0, hl0, rfl⟩
        rcases List.mem_cons.mp hs with hs | hs
        · rw [hs]; exact h.1.1
        · exact segments_of_leaves ok hok item h.1.2 l0 hl0 s hs
      · exact segments_of_leavesFields ok hok rest h.2 l hl s hs
end

theorem head_of_leavesItems (index : Nat) (items : List ConfigValue) :
    ∀ l ∈ leavesItems index items, ∃ k t, index ≤ k ∧ l.1 = strconvItoa k :: t := by
  induction items generalizing index with
  | nil => intro l hl; simp [leavesItems] at hl
  | cons item rest ih =>
      intro l hl
      rw [leavesItems, List.mem_append] at hl
      rcases hl with hl | hl
      · rcases List.mem_map.mp hl with ⟨l0, _, rfl⟩
        exact ⟨index, l0.1, le_refl _, rfl⟩
      · rcases ih (index + 1) l hl with ⟨k, t, hk, ht⟩
        exact ⟨k, t, by omega, ht⟩

theorem head_of_leavesFields (fields : List (String × ConfigValue)) :
    ∀ l ∈ leavesFields fields, ∃ name t, name ∈ fields.map Prod.fst ∧ l.1 = name :: t := by
  induction fields with
  | nil => intro l hl; simp [leavesFields] at hl
  | cons field rest ih =>
      obtain ⟨name, item⟩ := field
      intro l hl
      rw [leavesFields, List.mem_append] at hl
      rcases hl with hl | hl
      · rcases List.mem_map.mp hl with ⟨l0, _, rfl⟩
        exact ⟨name, l0.1, by simp, rfl⟩
      · rcases ih l hl with ⟨n, t, hn, ht⟩
        exact ⟨n, t, by simp only [List.map_cons, List.mem_cons]; right; exact hn, ht⟩

theorem nodup_cons_positions (seg : String) (ls : List (List String × Scalar))
    (h : (ls.map Prod.fst).Nodup) :
    ((ls.map (fun l => (seg :: l.1, l.2))).map Prod.fst).Nodup := by
  rw [List.map_map]
  have : (Prod.fst ∘ fun l : List String × Scalar => (seg :: l.1, l.2))
      = (fun t => seg :: t) ∘ Prod.fst := rfl
  rw [this, ← List.map_map]
  exact h.map (fun a b hab => by injection hab)

mutual
theorem nodup_positions :
    ∀ v : ConfigValue, distinctNames v = true → ((leaves v).map Prod.fst).Nodup
  | .scalar _, _ => by simp [leaves]
  | .sequence items, h => by
      rw [leaves]
      rw [distinctNames] at h
      exact nodup_positionsItems 0 items h
  | .object fields, h => by
      rw [leaves]
      rw [distinctNames, Bool.and_eq_true, decide_eq_true_eq] at h
      exact nodup_positionsFields fields h.1 h.2
theorem nodup_positionsItems (index : Nat) :
    ∀ items : List ConfigValue, distinctNamesItems items = true →
      ((leavesItems index items).map Prod.fst).Nodup
  | [], _ => by simp [leavesItems]
  | item :: rest, h => by
      rw [distinctNamesItems, Bool.and_eq_true] at h
      rw [leavesItems, List.map_append, List.nodup_append]
      refine ⟨nodup_cons_positions _ _ (nodup_positions item h.1),
        nodup_positionsItems (index + 1) rest h.2, ?_⟩
      intro segs ha hb
      rcases List.mem_map.mp ha with ⟨la, hla, rfl⟩
      rcases List.mem_map.mp hla with ⟨l0, _, rfl⟩
      rcases List.mem_map.mp hb with ⟨lb, hlb, hseg⟩
      rcases head_of_leavesItems (index + 1) rest lb hlb with ⟨k, t, hk, ht⟩
      rw [ht] at hseg
      injection hseg with hhead _
      have := strconvItoa_injective _ _ hhead
      omega
theorem nodup_positionsFields :
    ∀ fields : List (String × ConfigValue), (fields.map Prod.fst).Nodup →
      distinctNamesFields fields = true → ((leavesFields fields).map Prod.fst).Nodup
  | [], _, _ => by simp [leavesFields]
  | (name, item) :: rest, hn, h => by
      rw [distinctNamesFields, Bool.and_eq_true] at h
      rw [List.map_cons, List.nodup_cons] at hn
      rw [leavesFields, List.map_append, List.nodup_append]
      refine ⟨nodup_cons_positions _ _ (nodup_positions item h.1),
        nodup_positionsFields rest hn.2 h.2, ?_⟩
      intro segs ha hb
      rcases List.mem_map.mp ha with ⟨la, hla, rfl⟩
      rcases List.mem_map.mp hla with ⟨l0, _, rfl⟩
      rcases List.mem_map.mp hb with ⟨lb, hlb, hseg⟩
      rcases head_of_leavesFields rest lb hlb with ⟨n, t, hmem, ht⟩
      rw [ht] at hseg
      injection hseg with hhead _
      exact hn.1 (by rw [← hhead]; exact hmem)
end

theorem keys_eq_map_positions (p : String) (v : ConfigValue) :
    (convertMapToKVPairs p v).map pair.Key
      = ((leaves v).map Prod.fst).map (fun segs => segs.foldl childPath p) := by
  rw [convert_eq_leaves, List.map_map, List.map_map]
  rfl

/-! ## Flattening: the claims -/

/-- C1 (as stated, refuted): under the empty prefix the pair of the leaf behind
the single segment `a` has key `a`, not `"" + "/" + "a"`. -/
theorem convertMapToKVPairs_empty_prefix_key :
    ¬ ((convertMapToKVPairs "" (.object [("a", .scalar (.int 1))])).map pair.Key
        = (leaves (.object [("a", .scalar (.int 1))])).map (fun l => delimitedKey "" l.1)) := by
  decide

/-- C1 (amended): the pairs of `convertMapToKVPairs p v` are, in order, the
leaves of `v`, each with the key obtained by one `childPath` step per segment
(delimiter and segment after a non-empty path, the segment alone after the
empty path) and with the stringified scalar; under a non-empty prefix that key
is `p + "/" + s1 + ... + "/" + sk`, under the empty prefix and a non-empty
first segment it is `s1 + "/" + s2 + ... + "/" + sk`. -/
theorem convertMapToKVPairs_keys (p : String) (v : ConfigValue) :
    convertMapToKVPairs p v = (leaves v).map (leafPair p) ∧
    (p ≠ "" → (convertMapToKVPairs p v).map pair.Key
        = (leaves v).map (fun l => delimitedKey p l.1)) ∧
    (∀ l ∈ leaves v, ∀ s rest, l.1 = s :: rest → s ≠ "" →
        (leafPair "" l).Key = delimitedKey s rest) := by
  refine ⟨convert_eq_leaves p v, fun hp => ?_, fun l _ s rest hl hs => ?_⟩
  · rw [convert_eq_leaves, List.map_map]
    apply List.map_congr_left
    intro l _
    exact foldl_childPath_eq_delimitedKey l.1 p hp
  · have hstep : childPath "" s = s := by simp [childPath]
    show l.1.foldl childPath "" = delimitedKey s rest
    rw [hl, List.foldl_cons, hstep]
    exact foldl_childPath_eq_delimitedKey rest s hs

/-- C1, at the prefix `cfg` and at the empty prefix, for the sample tree
`{a: 1, b: [true, nil, -12]}`. -/
theorem convertMapToKVPairs_keys_witness :
    "cfg" ≠ "" ∧
    (convertMapToKVPairs "cfg" sampleTree).map pair.Key
      = (leaves sampleTree).map (fun l => delimitedKey "cfg" l.1) ∧
    (leafPair "" (["b", "2"], .int (-12))).Key = delimitedKey "b" ["2"] :=
  ⟨by decide, (convertMapToKVPairs_keys "cfg" sampleTree).2.1 (by decide),
    (convertMapToKVPairs_keys "" sampleTree).2.2 (["b", "2"], .int (-12)) (by decide)
      "b" ["2"] rfl (by decide)⟩

/-- C2: the number of pairs of `convertMapToKVPairs p v` is the number of
scalar leaves of `v`; an empty sequence and an empty map have no leaf and yield
no pair. -/
theorem convertMapToKVPairs_length (p : String) (v : ConfigValue) :
    (convertMapToKVPairs p v).length = countLeaves v ∧
    countLeaves (.sequence []) = 0 ∧ countLeaves (.object []) = 0 ∧
    convertMapToKVPairs p (.sequence []) = [] ∧ convertMapToKVPairs p (.object []) = [] :=
  ⟨length_convert p v, rfl, rfl, by simp [convertMapToKVPairs, convertItems],
    by simp [convertMapToKVPairs, convertFields]⟩

/-- C3 (as stated, refuted): under the empty prefix the tree `{"": {a: 1}, a: 2}`,
whose field names are distinct and free of the delimiter, has two distinct leaf
positions with the same key `a`. -/
theorem convertMapToKVPairs_keys_collide :
    distinctNames emptyNameTree = true ∧ namesAll noDelimiter emptyNameTree = true ∧
    ((leaves emptyNameTree).map Prod.fst).Nodup ∧
    ¬ ((convertMapToKVPairs "" emptyNameTree).map pair.Key).Nodup := by
  decide

/-- C3 (amended): when the maps of `v` have distinct field names, no field name
holds the delimiter and either the prefix is non-empty or no field name is
empty, the keys of `convertMapToKVPairs p v` are pairwise distinct. -/
theorem convertMapToKVPairs_keys_nodup (p : String) (v : ConfigValue)
    (hd : distinctNames v = true) (hn : namesAll noDelimiter v = true)
    (he : p ≠ "" ∨ namesAll nonEmpty v = true) :
    ((convertMapToKVPairs p v).map pair.Key).Nodup := by
  rw [keys_eq_map_positions]
  have hseg : ∀ segs ∈ (leaves v).map Prod.fst, ∀ s ∈ segs, noDelimiter s = true := by
    intro segs hs
    rcases List.mem_map.mp hs with ⟨l, hl, rfl⟩
    exact segments_of_leaves noDelimiter noDelimiter_strconvItoa v hn l hl
  refine List.Nodup.map_on ?_ (nodup_positions v hd)
  intro a ha b hb hab
  by_cases hp : p = ""
  · rcases he with he | he
    · exact absurd hp he
    · have hne : ∀ segs ∈ (leaves v).map Prod.fst, ∀ s ∈ segs, nonEmpty s = true := by
        intro segs hs
        rcases List.mem_map.mp hs with ⟨l, hl, rfl⟩
        exact segments_of_leaves nonEmpty nonEmpty_strconvItoa v he l hl
      rw [hp] at hab
      exact key_injective_of_nonEmpty a b (hseg a ha) (hseg b hb) (hne a ha) (hne b hb) hab
  · exact key_injective_of_ne_empty p hp a b (hseg a ha) (hseg b hb) hab

/-- C3, at the empty prefix and the sample tree, and at the prefix `cfg` and the
tree with an empty field name. -/
theorem convertMapToKVPairs_keys_nodup_witness :
    ((convertMapToKVPairs "" sampleTree).map pair.Key).Nodup ∧
    ((convertMapToKVPairs "cfg" emptyNameTree).map pair.Key).Nodup :=
  ⟨convertMapToKVPairs_keys_nodup "" sampleTree (by decide) (by decide) (Or.inr (by decide)),
    convertMapToKVPairs_keys_nodup "cfg" emptyNameTree (by decide) (by decide)
      (Or.inl (by decide))⟩

/-! ## The client against the mock server -/

theorem handle_get (mock : MockCoreKeeper) (host path : String)
    (query : List (String × String)) :
    (mock.handle ⟨"GET", host, path, query, none⟩).1 = mock := by
  unfold MockCoreKeeper.handle
  simp only [show ("GET" : String) ≠ "PUT" by decide, if_false, if_true]
  split
  · split <;> [skip; split] <;> rfl
  · split <;> rfl

theorem handle_get_keys (mock : MockCoreKeeper) (host path : String) :
    (mock.handle ⟨"GET", host, path, [(KeyOnly, "true")], none⟩).2 =
      match routedKey path with
      | some k =>
        if (mock.checkForPrefix k).2 then
          ⟨200, some (.multiKey ⟨(mock.checkForPrefix k).1.map KV.Key⟩)⟩
        else ⟨404, some (.errorResponse ⟨"query key " ++ k ++ " not found", 404⟩)⟩
      | none => ⟨200, some (.raw "")⟩ := by
  unfold MockCoreKeeper.handle routedKey
  simp only [show ("GET" : String) ≠ "PUT" by decide, if_false, if_true]
  cases hr : stringsContains path ApiKVRoute
  · simp only [Bool.false_eq_true, if_false]
    split <;> rfl
  · simp only [if_true]
    cases hc : (mock.checkForPrefix (stringsReplaceOnce path (ApiKVRoute ++ "/") "")).2
    · simp only [Bool.not_false, if_true, Bool.false_eq_true, if_false]
    · simp only [Bool.not_true, Bool.false_eq_true, if_false, if_true]
      rfl

theorem checkForPrefix_snd (mock : MockCoreKeeper) (k : String) :
    (mock.checkForPrefix k).2 = false ↔
      ∀ e ∈ mock.keyValueStore, stringsHasPrefix e.1 k = false := by
  unfold MockCoreKeeper.checkForPrefix
  simp only [List.length_map]
  constructor
  · intro h e he
    by_contra hne
    have hmem : e ∈ mock.keyValueStore.filter (fun e => stringsHasPrefix e.1 k) :=
      List.mem_filter.mpr ⟨he, by simpa using hne⟩
    have hlen : (mock.keyValueStore.filter (fun e => stringsHasPrefix e.1 k)).length ≠ 0 := by
      intro h0
      rw [List.length_eq_zero] at h0
      rw [h0] at hmem
      cases hmem
    rw [if_neg hlen] at h
    cases h
  · intro h
    have : mock.keyValueStore.filter (fun e => stringsHasPrefix e.1 k) = [] := by
      rw [List.filter_eq_nil_iff]
      intro e he
      simp [h e he]
    rw [this]
    rfl

theorem checkForPrefix_fst (mock : MockCoreKeeper) (k : String) :
    ((mock.checkForPrefix k).2 = false → (mock.checkForPrefix k).1 = []) ∧
    ((mock.checkForPrefix k).2 = true → (mock.checkForPrefix k).1 ≠ []) := by
  unfold MockCoreKeeper.checkForPrefix
  by_cases h0 : ((mock.keyValueStore.filter (fun e => stringsHasPrefix e.1 k)).map
      Prod.snd).length = 0
  · rw [if_pos h0]
    exact ⟨fun _ => rfl, fun h => by cases h⟩
  · rw [if_neg h0]
    refine ⟨fun h => (by cases h), fun _ hnil => h0 ?_⟩
    simp only at hnil
    rw [hnil]
    rfl

theorem keys_mock (c : Caller) (key : String) (mock : MockCoreKeeper) :
    KV.Keys mockTransport c key mock =
      match c.baseUrl.parseError with
      | some e => (mock, ⟨[]⟩, some e)
      | none =>
        match routedKey (pathJoin [ApiKVRoute, key]) with
        | some k => (mock, ⟨(mock.checkForPrefix k).1.map KV.Key⟩, none)
        | none => (mock, ⟨[]⟩, none) := by
  unfold KV.Keys GetRequest createRequest
  generalize pathJoin [ApiKVRoute, key] = url
  cases hp : c.baseUrl.parseError with
  | some e => simp
  | none =>
    simp only [sendRequest, mockTransport, makeRequest, getBody, Option.getD_some]
    rw [handle_get, handle_get_keys]
    cases hk : routedKey url with
    | none => simp [ErrorResponse.zero, Body.isEmpty]
    | some k =>
      simp only []
      rcases Bool.eq_false_or_eq_true (mock.checkForPrefix k).2 with hc | hc
      · simp [hc, ErrorResponse.zero, Body.isEmpty, unmarshalMultiKey]
      · simp [hc, unmarshalErrorResponse, ErrorResponse.zero]
        exact (checkForPrefix_fst mock k).1 hc

theorem handle_put (mock : MockCoreKeeper) (host path : String) (v : ConfigValue) :
    mock.handle ⟨"PUT", host, path, [], some ⟨v⟩⟩ =
      match routedKey path with
      | some k => (mock.updateKVStore k v, ⟨200, some (.raw "")⟩)
      | none => (mock, ⟨200, some (.raw "")⟩) := by
  unfold MockCoreKeeper.handle routedKey
  cases hr : stringsContains path ApiKVRoute
  · simp only [Bool.false_eq_true, if_false]
    split <;> rfl
  · simp only [if_true, List.any_nil, Bool.false_eq_true, if_false, Option.getD_some]

theorem put_mock (c : Caller) (key value : String) (mock : MockCoreKeeper) :
    KV.Put mockTransport c key (.bytes value) mock =
      match c.baseUrl.parseError with
      | some e => (mock, some ("fail to parse baseUrl, err: " ++ e))
      | none =>
        match routedKey (pathJoin [ApiKVRoute, key]) with
        | some k => (mock.updateKVStore k (.scalar (.str value)), none)
        | none => (mock, none) := by
  unfold KV.Put PutRequest createRequestWithRawData
  generalize pathJoin [ApiKVRoute, key] = url
  cases hp : c.baseUrl.parseError with
  | some e => simp
  | none =>
    simp only [sendRequest, mockTransport, makeRequest, getBody, Option.getD_none,
      PutData.toValue]
    rw [handle_put]
    cases hk : routedKey url with
    | none => simp [ErrorResponse.zero]
    | some k => simp [ErrorResponse.zero]

theorem exists_mock (client : keeperClient) (name : String) (mock : MockCoreKeeper) :
    client.ConfigurationValueExists mockTransport name mock =
      match client.caller.baseUrl.parseError with
      | some e =>
          (mock, false, some ("checking configuration existence from Core Keeper failed: " ++ e))
      | none =>
        match client.storeKey name with
        | some k => (mock, (mock.checkForPrefix k).2, none)
        | none => (mock, false, none) := by
  unfold keeperClient.ConfigurationValueExists keeperClient.storeKey
  dsimp only
  rw [keys_mock]
  cases hp : client.caller.baseUrl.parseError with
  | some e => rfl
  | none =>
    cases hk : routedKey (pathJoin [ApiKVRoute, client.fullPath name]) with
    | none => rfl
    | some k =>
      simp only [List.length_map]
      rcases Bool.eq_false_or_eq_true (mock.checkForPrefix k).2 with hc | hc
      · have hne := (checkForPrefix_fst mock k).2 hc
        rw [if_neg (fun h0 => hne (List.length_eq_zero.mp h0)), hc]
      · rw [(checkForPrefix_fst mock k).1 hc, hc]
        rfl

theorem putValue_mock (client : keeperClient) (name value : String) (mock : MockCoreKeeper) :
    client.PutConfigurationValue mockTransport name value mock =
      match client.caller.baseUrl.parseError with
      | some e =>
          (mock, some ("unable to JSON marshal configStruct, err: "
            ++ ("fail to parse baseUrl, err: " ++ e)))
      | none =>
        match client.storeKey name with
        | some k => (mock.updateKVStore k (.scalar (.str value)), none)
        | none => (mock, none) := by
  unfold keeperClient.PutConfigurationValue keeperClient.storeKey
  dsimp only
  rw [put_mock]
  cases hp : client.caller.baseUrl.parseError with
  | some e => rfl
  | none =>
    cases hk : routedKey (pathJoin [ApiKVRoute, client.fullPath name]) with
    | none => rfl
    | some k => rfl

/-! ## The store as a map -/

theorem hasPrefix_self (k : String) : stringsHasPrefix k k = true := by
  unfold stringsHasPrefix
  rw [List.isPrefixOf_iff_prefix]

theorem mapGet_of_unmatched (k : String) (store : List (String × KV))
    (h : ∀ e ∈ store, stringsHasPrefix e.1 k = false) : mapGet k store = none := by
  induction store with
  | nil => rfl
  | cons e rest ih =>
      obtain ⟨k0, v0⟩ := e
      have hne : k0 ≠ k := by
        intro heq
        have := h (k0, v0) (by simp)
        rw [heq, hasPrefix_self] at this
        cases this
      rw [mapGet, if_neg hne]
      exact ih (fun e he => h e (List.mem_cons_of_mem _ he))

theorem mapGet_mapSet_ne (k key : String) (kv : KV) (store : List (String × KV))
    (h : k ≠ key) : mapGet k (mapSet key kv store) = mapGet k store := by
  induction store with
  | nil => simp [mapSet, mapGet, Ne.symm h]
  | cons e rest ih =>
      obtain ⟨k0, v0⟩ := e
      by_cases h0 : k0 = key
      · rw [mapSet, if_pos h0, mapGet, mapGet, if_neg (Ne.symm h), h0, if_neg (Ne.symm h)]
      · rw [mapSet, if_neg h0, mapGet, mapGet, ih]

theorem mapGet_mapSet_self (key : String) (kv : KV) (store : List (String × KV)) :
    mapGet key (mapSet key kv store) = some kv := by
  induction store with
  | nil => simp [mapSet, mapGet]
  | cons e rest ih =>
      obtain ⟨k0, v0⟩ := e
      by_cases h0 : k0 = key
      · rw [mapSet, if_pos h0, mapGet, if_pos rfl]
      · rw [mapSet, if_neg h0, mapGet, if_neg h0, ih]

theorem mem_mapSet (key : String) (kv : KV) (store : List (String × KV)) :
    ∀ e ∈ mapSet key kv store, e.1 = key ∨ e ∈ store := by
  induction store with
  | nil =>
      intro e he
      simp only [mapSet, List.mem_singleton] at he
      left; rw [he]
  | cons e0 rest ih =>
      obtain ⟨k0, v0⟩ := e0
      intro e he
      by_cases h0 : k0 = key
      · rw [mapSet, if_pos h0] at he
        rcases List.mem_cons.mp he with he | he
        · left; rw [he]
        · right; exact List.mem_cons_of_mem _ he
      · rw [mapSet, if_neg h0] at he
        rcases List.mem_cons.mp he with he | he
        · right; rw [he]; simp
        · rcases ih e he with h | h
          · left; exact h
          · right; exact List.mem_cons_of_mem _ h

theorem mapGet_updateKVStore_ne (mock : MockCoreKeeper) (k key : String) (v : ConfigValue)
    (h : k ≠ key) :
    mapGet k (mock.updateKVStore key v).keyValueStore = mapGet k mock.keyValueStore := by
  unfold MockCoreKeeper.updateKVStore
  split <;> exact mapGet_mapSet_ne k key _ _ h

theorem mem_updateKVStore (mock : MockCoreKeeper) (key : String) (v : ConfigValue) :
    ∀ e ∈ (mock.updateKVStore key v).keyValueStore, e.1 = key ∨ e ∈ mock.keyValueStore := by
  unfold MockCoreKeeper.updateKVStore
  split <;> exact mem_mapSet key _ _

/-! ## The loop of `PutConfiguration` -/

theorem putAbsent_cons (client : keeperClient) (kv : pair) (rest : List pair)
    (mock : MockCoreKeeper) :
    client.putAbsent mockTransport (kv :: rest) mock =
      match client.caller.baseUrl.parseError with
      | some e =>
          (mock, some ("checking configuration existence from Core Keeper failed: " ++ e))
      | none =>
        match client.storeKey kv.Key with
        | some k =>
          if (mock.checkForPrefix k).2 then client.putAbsent mockTransport rest mock
          else client.putAbsent mockTransport rest
            (mock.updateKVStore k (.scalar (.str kv.Value)))
        | none => client.putAbsent mockTransport rest mock := by
  rw [keeperClient.putAbsent, exists_mock]
  cases hp : client.caller.baseUrl.parseError with
  | some e => rfl
  | none =>
    cases hk : client.storeKey kv.Key with
    | none =>
      simp only [Bool.not_false, if_true]
      rw [putValue_mock, hp]
      simp only [hk]
    | some k =>
      simp only []
      rcases Bool.eq_false_or_eq_true (mock.checkForPrefix k).2 with hc | hc
      · simp only [hc, Bool.not_true, Bool.false_eq_true, if_false, if_true]
      · simp only [hc, Bool.not_false, if_true, Bool.false_eq_true, if_false]
        rw [putValue_mock, hp]
        simp only [hk]

theorem putAbsent_frame (client : keeperClient) (pairs : List pair) :
    ∀ (mock : MockCoreKeeper) (k : String) (kv : KV),
      mapGet k mock.keyValueStore = some kv →
      mapGet k (client.putAbsent mockTransport pairs mock).1.keyValueStore = some kv := by
  induction pairs with
  | nil => intro mock k kv h; exact h
  | cons p rest ih =>
      intro mock k kv h
      rw [putAbsent_cons]
      cases hp : client.caller.baseUrl.parseError with
      | some e => exact h
      | none =>
        cases hk : client.storeKey p.Key with
        | none => exact ih mock k kv h
        | some key =>
          simp only []
          rcases Bool.eq_false_or_eq_true (mock.checkForPrefix key).2 with hc | hc
          · rw [if_pos hc]
            exact ih mock k kv h
          · rw [if_neg (by rw [hc]; decide)]
            apply ih
            have hnone := mapGet_of_unmatched key mock.keyValueStore
              ((checkForPrefix_snd mock key).mp hc)
            have hne : k ≠ key := by
              intro heq
              rw [heq, hnone] at h
              cases h
            rw [mapGet_updateKVStore_ne mock k key _ hne]
            exact h

theorem putAbsent_skip (client : keeperClient) (K : String) (tail : List pair)
    (hp : client.caller.baseUrl.parseError = none) (l1 : List pair) :
    ∀ mock : MockCoreKeeper,
      (∀ e ∈ mock.keyValueStore, stringsHasPrefix e.1 K = false) →
      (∀ kv ∈ l1, ∀ k, client.storeKey kv.Key = some k → stringsHasPrefix k K = false) →
      ∃ later : MockCoreKeeper,
        client.putAbsent mockTransport (l1 ++ tail) mock
          = client.putAbsent mockTransport tail later ∧
        ∀ e ∈ later.keyValueStore, stringsHasPrefix e.1 K = false := by
  induction l1 with
  | nil => intro mock h _; exact ⟨mock, rfl, h⟩
  | cons p rest ih =>
      intro mock h hl
      have hrest : ∀ kv ∈ rest, ∀ k, client.storeKey kv.Key = some k →
          stringsHasPrefix k K = false := fun kv hkv => hl kv (List.mem_cons_of_mem _ hkv)
      rw [List.cons_append, putAbsent_cons, hp]
      cases hk : client.storeKey p.Key with
      | none => exact ih mock h hrest
      | some key =>
        simp only []
        rcases Bool.eq_false_or_eq_true (mock.checkForPrefix key).2 with hc | hc
        · rw [if_pos hc]
          exact ih mock h hrest
        · rw [if_neg (by rw [hc]; decide)]
          apply ih _ _ hrest
          intro e he
          rcases mem_updateKVStore mock key _ e he with h1 | h1
          · rw [h1]
            exact hl p (by simp) key hk
          · exact h e h1

theorem putAbsent_error_of_parseError (client : keeperClient) (kv : pair) (rest : List pair)
    (mock : MockCoreKeeper) (h : (client.putAbsent mockTransport (kv :: rest) mock).2 = none) :
    client.caller.baseUrl.parseError = none := by
  rw [putAbsent_cons] at h
  cases hp : client.caller.baseUrl.parseError with
  | none => rfl
  | some e =>
    rw [hp] at h
    cases h

theorem updateKVStore_fresh (mock : MockCoreKeeper) (K : String) (v : ConfigValue)
    (h : mapGet K mock.keyValueStore = none) :
    mapGet K (mock.updateKVStore K v).keyValueStore = some ⟨K, v⟩ := by
  unfold MockCoreKeeper.updateKVStore
  rw [h]
  exact mapGet_mapSet_self K _ _

theorem putAbsent_writes (client : keeperClient) (mock : MockCoreKeeper)
    (l1 : List pair) (kv : pair) (l2 : List pair) (K : String)
    (herr : (client.putAbsent mockTransport (l1 ++ kv :: l2) mock).2 = none)
    (hK : client.storeKey kv.Key = some K)
    (hstore : ∀ e ∈ mock.keyValueStore, stringsHasPrefix e.1 K = false)
    (hearlier : ∀ kv0 ∈ l1, ∀ k, client.storeKey kv0.Key = some k →
      stringsHasPrefix k K = false) :
    mapGet K (client.putAbsent mockTransport (l1 ++ kv :: l2) mock).1.keyValueStore
      = some ⟨K, .scalar (.str kv.Value)⟩ := by
  have hp : client.caller.baseUrl.parseError = none := by
    cases l1 with
    | nil => exact putAbsent_error_of_parseError client kv l2 mock herr
    | cons p rest => exact putAbsent_error_of_parseError client p (rest ++ kv :: l2) mock herr
  obtain ⟨later, heq, hlater⟩ := putAbsent_skip client K (kv :: l2) hp l1 mock hstore hearlier
  rw [heq, putAbsent_cons, hp]
  simp only [hK]
  have hc : (later.checkForPrefix K).2 = false := (checkForPrefix_snd later K).mpr hlater
  rw [if_neg (by rw [hc]; decide)]
  apply putAbsent_frame
  exact updateKVStore_fresh later K _ (mapGet_of_unmatched K _ hlater)

/-! ## Paths that `path.Join` leaves unchanged -/

theorem normalElem_spec (e : List Char) (h : normalElem e = true) :
    e ≠ [] ∧ e ≠ ['.'] ∧ e ≠ ['.', '.'] ∧ '/' ∉ e := by
  simp only [normalElem, Bool.and_eq_true, Bool.not_eq_true', bne_iff_ne, ne_eq,
    List.isEmpty_eq_false, List.contains_eq_any_beq, List.any_eq_false, beq_iff_eq] at h
  refine ⟨h.1.1.1, h.1.1.2, h.1.2, fun hm => h.2 _ hm rfl⟩

theorem cleanStep_normal (rooted : Bool) (out : List (List Char)) (e : List Char)
    (h : normalElem e = true) : cleanStep rooted out e = e :: out := by
  obtain ⟨h1, h2, h3, _⟩ := normalElem_spec e h
  unfold cleanStep
  rw [if_neg (by simp [h1, h2]), if_neg h3]

theorem foldl_cleanStep_normal (rooted : Bool) (comps : List (List Char)) :
    ∀ out, (∀ e ∈ comps, normalElem e = true) →
      comps.foldl (cleanStep rooted) out = comps.reverse ++ out := by
  induction comps with
  | nil => intro out _; rfl
  | cons e rest ih =>
      intro out h
      rw [List.foldl_cons, cleanStep_normal rooted out e (h e (by simp)),
        ih _ (fun x hx => h x (List.mem_cons_of_mem _ hx))]
      simp

theorem intercalate_cons_cons (sep e e2 : List Char) (rest : List (List Char)) :
    sep.intercalate (e :: e2 :: rest) = e ++ sep ++ sep.intercalate (e2 :: rest) := by
  simp [List.intercalate, List.intersperse]

theorem intercalate_append_ne (sep : List Char) (a : List (List Char)) :
    ∀ b : List (List Char), a ≠ [] → b ≠ [] →
      sep.intercalate (a ++ b) = sep.intercalate a ++ sep ++ sep.intercalate b := by
  induction a with
  | nil => intro b h; exact absurd rfl h
  | cons e rest ih =>
      intro b _ hb
      cases rest with
      | nil =>
          cases b with
          | nil => exact absurd rfl hb
          | cons e2 b2 =>
              rw [List.singleton_append, intercalate_cons_cons]
              simp [List.intercalate, List.intersperse]
      | cons e2 rest2 =>
          rw [List.cons_append, List.cons_append, intercalate_cons_cons, intercalate_cons_cons,
            ← List.cons_append, ih b (by simp) hb]
          simp [List.append_assoc]

theorem splitOn_rooted (comps : List (List Char)) (hne : comps ≠ [])
    (h : ∀ e ∈ comps, normalElem e = true) :
    ('/' :: ['/'].intercalate comps).splitOn '/' = [] :: comps := by
  have hx : ∀ l ∈ ([] :: comps), '/' ∉ l := by
    intro l hl
    rcases List.mem_cons.mp hl with hl | hl
    · rw [hl]; simp
    · exact (normalElem_spec l (h l hl)).2.2.2
  have := List.splitOn_intercalate ([] :: comps) '/' hx (by simp)
  cases comps with
  | nil => exact absurd rfl hne
  | cons e rest =>
      rw [intercalate_cons_cons] at this
      simpa using this

theorem splitOn_relative (comps : List (List Char)) (hne : comps ≠ [])
    (h : ∀ e ∈ comps, normalElem e = true) :
    (['/'].intercalate comps).splitOn '/' = comps :=
  List.splitOn_intercalate comps '/' (fun l hl => (normalElem_spec l (h l hl)).2.2.2) hne

theorem intercalate_head (comps : List (List Char)) (hne : comps ≠ [])
    (h : ∀ e ∈ comps, normalElem e = true) :
    ∃ c cs, ['/'].intercalate comps = c :: cs ∧ c ≠ '/' := by
  cases comps with
  | nil => exact absurd rfl hne
  | cons e rest =>
      obtain ⟨h1, _, _, h4⟩ := normalElem_spec e (h e (by simp))
      cases e with
      | nil => exact absurd rfl h1
      | cons c cs =>
          have hc : c ≠ '/' := fun hc => h4 (by rw [hc]; simp)
          cases rest with
          | nil => exact ⟨c, cs, by simp [List.intercalate, List.intersperse], hc⟩
          | cons e2 r2 =>
              exact ⟨c, cs ++ ['/'] ++ ['/'].intercalate (e2 :: r2),
                by rw [intercalate_cons_cons]; simp, hc⟩

theorem pathClean_rooted (comps : List (List Char)) (hne : comps ≠ [])
    (h : ∀ e ∈ comps, normalElem e = true) :
    pathClean ⟨'/' :: ['/'].intercalate comps⟩ = ⟨'/' :: ['/'].intercalate comps⟩ := by
  unfold pathClean
  have h0 : (⟨'/' :: ['/'].intercalate comps⟩ : String) ≠ "" := by
    intro hc
    have := congrArg String.data hc
    cases this
  rw [if_neg h0]
  simp only [List.head?_cons, beq_self_eq_true, if_true]
  rw [splitOn_rooted comps hne h, List.foldl_cons]
  have hs : cleanStep true [] [] = [] := by simp [cleanStep]
  rw [hs, foldl_cleanStep_normal true comps [] h, List.append_nil, List.reverse_reverse]
  apply String.ext
  simp [String.data_append]

theorem pathClean_relative (comps : List (List Char)) (hne : comps ≠ [])
    (h : ∀ e ∈ comps, normalElem e = true) :
    pathClean ⟨['/'].intercalate comps⟩ = ⟨['/'].intercalate comps⟩ := by
  obtain ⟨c, cs, hcs, hc⟩ := intercalate_head comps hne h
  unfold pathClean
  have h0 : (⟨['/'].intercalate comps⟩ : String) ≠ "" := by
    intro hx
    have := congrArg String.data hx
    rw [hcs] at this
    cases this
  rw [if_neg h0]
  have hr : ((⟨['/'].intercalate comps⟩ : String).data.head? == some '/') = false := by
    simp only [hcs, List.head?_cons]
    simpa using hc
  simp only [hr, Bool.false_eq_true, if_false]
  rw [splitOn_relative comps hne h, foldl_cleanStep_normal false comps [] h, List.append_nil,
    List.reverse_reverse, if_neg h0]

theorem cleanRelative_comps (p : String) (h : cleanRelative p = true) :
    ∃ comps : List (List Char), comps ≠ [] ∧ (∀ e ∈ comps, normalElem e = true) ∧
      p.data = ['/'].intercalate comps := by
  refine ⟨p.data.splitOn '/', List.splitOnP_ne_nil _ _, ?_, (List.intercalate_splitOn p.data '/').symm⟩
  simpa [cleanRelative, List.all_eq_true] using h

theorem cleanRelative_of_comps (p : String) (comps : List (List Char)) (hne : comps ≠ [])
    (h : ∀ e ∈ comps, normalElem e = true) (hp : p.data = ['/'].intercalate comps) :
    cleanRelative p = true := by
  unfold cleanRelative
  rw [hp, splitOn_relative comps hne h, List.all_eq_true]
  exact h

theorem ne_empty_of_comps (p : String) (comps : List (List Char)) (hne : comps ≠ [])
    (h : ∀ e ∈ comps, normalElem e = true) (hp : p.data = ['/'].intercalate comps) :
    p ≠ "" := by
  obtain ⟨c, cs, hcs, _⟩ := intercalate_head comps hne h
  intro hx
  rw [hx, hcs] at hp
  cases hp

theorem pathJoin_pair (a b : String) (ha : a ≠ "") :
    pathJoin [a, b] = pathClean (a ++ "/" ++ b) := by
  unfold pathJoin
  simp only [List.dropWhile_cons, decide_eq_true_eq, if_neg ha]
  rfl

theorem routeComps : ApiKVRoute.data
    = '/' :: ['/'].intercalate ["api".data, "v2".data, "kvs".data, "key".data] := by
  decide

theorem routedKey_route_append (p : String) :
    routedKey (ApiKVRoute ++ "/" ++ p) = some p := by
  have hd : (ApiKVRoute ++ "/" ++ p).data = (ApiKVRoute ++ "/").data ++ p.data := by
    simp [String.data_append]
  have hpre : (ApiKVRoute ++ "/").data.isPrefixOf ((ApiKVRoute ++ "/").data ++ p.data) = true := by
    rw [List.isPrefixOf_iff_prefix]
    exact List.prefix_append _ _
  have hpre2 : ApiKVRoute.data.isPrefixOf ((ApiKVRoute ++ "/").data ++ p.data) = true := by
    rw [List.isPrefixOf_iff_prefix]
    exact ⟨"/".data ++ p.data, by simp [String.data_append]⟩
  have hcons : ∃ c cs, (ApiKVRoute ++ "/").data ++ p.data = c :: cs :=
    ⟨'/', "api/v2/kvs/key/".data ++ p.data, rfl⟩
  obtain ⟨c, cs, hcs⟩ := hcons
  unfold routedKey stringsContains stringsReplaceOnce
  rw [hd]
  have h1 : containsChars ((ApiKVRoute ++ "/").data ++ p.data) ApiKVRoute.data = true := by
    rw [hcs] at hpre2 ⊢
    rw [containsChars, hpre2]
    rfl
  rw [h1, if_pos rfl]
  have h2 : (ApiKVRoute ++ "/").data.isEmpty = false := by decide
  rw [h2]
  simp only [Bool.false_eq_true, if_false, Option.some.injEq]
  apply String.ext
  show replaceOnceChars (ApiKVRoute ++ "/").data "".data ((ApiKVRoute ++ "/").data ++ p.data)
    = p.data
  rw [hcs] at hpre ⊢
  rw [replaceOnceChars, if_pos hpre, ← hcs]
  show [] ++ List.drop (ApiKVRoute ++ "/").data.length ((ApiKVRoute ++ "/").data ++ p.data)
    = p.data
  rw [List.nil_append, List.drop_left]

theorem routedKey_clean (p : String) (h : cleanRelative p = true) :
    routedKey (pathJoin [ApiKVRoute, p]) = some p := by
  obtain ⟨comps, hne, hnorm, hp⟩ := cleanRelative_comps p h
  rw [pathJoin_pair ApiKVRoute p (by decide)]
  have hroute : ∀ e ∈ ["api".data, "v2".data, "kvs".data, "key".data],
      normalElem e = true := by decide
  have hall : ∀ e ∈ ["api".data, "v2".data, "kvs".data, "key".data] ++ comps,
      normalElem e = true := by
    intro e he
    rcases List.mem_append.mp he with he | he
    · exact hroute e he
    · exact hnorm e he
  have hdata : (ApiKVRoute ++ "/" ++ p)
      = ⟨'/' :: ['/'].intercalate (["api".data, "v2".data, "kvs".data, "key".data] ++ comps)⟩ := by
    apply String.ext
    rw [intercalate_append_ne _ _ _ (by simp) hne]
    simp only [String.data_append, routeComps, hp]
    simp
  rw [hdata, pathClean_rooted _ (by simp) hall, ← hdata]
  exact routedKey_route_append p

theorem fullPath_clean (base name : String) (hb : cleanRelative base = true)
    (hn : cleanRelative name = true) :
    pathJoin [base, name] = base ++ "/" ++ name ∧
      cleanRelative (base ++ "/" ++ name) = true := by
  obtain ⟨cb, hbne, hbn, hbd⟩ := cleanRelative_comps base hb
  obtain ⟨cn, hnne, hnn, hnd⟩ := cleanRelative_comps name hn
  have hall : ∀ e ∈ cb ++ cn, normalElem e = true := by
    intro e he
    rcases List.mem_append.mp he with he | he
    · exact hbn e he
    · exact hnn e he
  have hdata : (base ++ "/" ++ name).data = ['/'].intercalate (cb ++ cn) := by
    rw [intercalate_append_ne _ _ _ hbne hnne]
    simp only [String.data_append, hbd, hnd]
  have heq : (base ++ "/" ++ name) = ⟨['/'].intercalate (cb ++ cn)⟩ := String.ext hdata
  refine ⟨?_, cleanRelative_of_comps _ (cb ++ cn) (by simp [hbne]) hall hdata⟩
  rw [pathJoin_pair base name (ne_empty_of_comps base cb hbne hbn hbd), heq]
  exact pathClean_relative _ (by simp [hbne]) hall

theorem storeKey_clean (client : keeperClient) (name : String)
    (hb : cleanRelative client.configBasePath = true) (hn : cleanRelative name = true) :
    client.storeKey name = some (client.configBasePath ++ "/" ++ name) := by
  unfold keeperClient.storeKey keeperClient.fullPath
  rw [(fullPath_clean _ _ hb hn).1]
  exact routedKey_clean _ (fullPath_clean _ _ hb hn).2

/-! ## `PutConfiguration` without overwrite: the claims -/

/-- The frame of `PutConfiguration(config, overwrite=false)` when every request
is delivered (`mockTransport`): with or without an error, every key that was in
the store before the call still has the value it had. -/
theorem PutConfiguration_keeps_existing (client : keeperClient) (config : ConfigValue)
    (mock : MockCoreKeeper) (k : String) (kv : KV)
    (h : mapGet k mock.keyValueStore = some kv) :
    mapGet k (client.PutConfiguration mockTransport config false mock).1.keyValueStore
      = some kv := by
  unfold keeperClient.PutConfiguration
  simp only [Bool.false_eq_true, if_false]
  exact putAbsent_frame client _ mock k kv h

/-- The frame over a delivering connection, at the store `{a/b: 0}` and the
configuration `{b: 1, c: 2}`: once with a call that returns nil, once with a
call that returns an error. -/
theorem PutConfiguration_keeps_existing_witness :
    (sampleClient.PutConfiguration mockTransport sampleConfig false sampleStore).2 = none ∧
    mapGet "a/b" (sampleClient.PutConfiguration mockTransport sampleConfig false
      sampleStore).1.keyValueStore = some ⟨"a/b", .scalar (.str "0")⟩ ∧
    (badUrlClient.PutConfiguration mockTransport sampleConfig false sampleStore).2.isSome
      = true ∧
    mapGet "a/b" (badUrlClient.PutConfiguration mockTransport sampleConfig false
      sampleStore).1.keyValueStore = some ⟨"a/b", .scalar (.str "0")⟩ :=
  ⟨by decide,
    PutConfiguration_keeps_existing sampleClient sampleConfig sampleStore "a/b" _ rfl,
    by decide,
    PutConfiguration_keeps_existing badUrlClient sampleConfig sampleStore "a/b" _ rfl⟩

/-- C4 (the code at the failing input): with base path `a`, the store
`{a/b: 0}` and the configuration `{b: 1, c: 2}`, when the connection is refused
for the first request (the existence check of `a/b`) and every later request is
delivered, `PutConfiguration(config, overwrite=false)` returns nil and the key
`a/b`, which held `0` before the call, holds `1` afterwards. -/
theorem PutConfiguration_overwrites_after_refused_check :
    storedText "a/b" sampleStore = some "0" ∧
    (sampleClient.PutConfiguration flakyTransport sampleConfig false
      (sampleStore, [true])).2 = none ∧
    storedText "a/b" (sampleClient.PutConfiguration flakyTransport sampleConfig false
      (sampleStore, [true])).1.1 = some "1" := by
  decide

/-- C5 (the code at the failing inputs): with base path `a`, each time
`PutConfiguration(config, overwrite=false)` returns nil and a flattened pair
whose key was absent before the call is absent afterwards: the pair `(b, 1)`
with the store `{a/bc: 0}`, because `a/bc` starts with `a/b`; the pair `(b, 1)`
of `{bc: 2, b: 1}` with the empty store, because `a/bc` was written first; the
pair `(c, 2)` of `{b: 1, c: 2}` with the store `{a/b: 0}`, when the connection
is refused for its PUT. -/
theorem PutConfiguration_absent_leaf_not_written :
    ((sampleClient.PutConfiguration mockTransport (.object [("b", .scalar (.int 1))]) false
        longerKeyStore).2 = none ∧
      (⟨"b", "1"⟩ : pair) ∈ convertMapToKVPairs "" (.object [("b", .scalar (.int 1))]) ∧
      sampleClient.storeKey "b" = some "a/b" ∧
      storedText "a/b" longerKeyStore = none ∧
      storedText "a/b" (sampleClient.PutConfiguration mockTransport
        (.object [("b", .scalar (.int 1))]) false longerKeyStore).1 = none) ∧
    ((sampleClient.PutConfiguration mockTransport nestedNameConfig false ⟨[]⟩).2 = none ∧
      (⟨"b", "1"⟩ : pair) ∈ convertMapToKVPairs "" nestedNameConfig ∧
      storedText "a/b" (sampleClient.PutConfiguration mockTransport nestedNameConfig false
        ⟨[]⟩).1 = none) ∧
    ((sampleClient.PutConfiguration flakyTransport sampleConfig false
        (sampleStore, [false, false, true])).2 = none ∧
      (⟨"c", "2"⟩ : pair) ∈ convertMapToKVPairs "" sampleConfig ∧
      sampleClient.storeKey "c" = some "a/c" ∧
      storedText "a/c" sampleStore = none ∧
      storedText "a/c" (sampleClient.PutConfiguration flakyTransport sampleConfig false
        (sampleStore, [false, false, true])).1.1 = none) := by
  decide

/-- What `PutConfiguration(config, overwrite=false)` writes when every request
is delivered (`mockTransport`): when the call returns nil, a flattened pair `(k, s)` whose store key `K` is a
prefix of no key in the store before the call and of no store key of a pair
flattened before it ends up in the store under `K` with value `s`; for a base
path and a key in clean form `K` is `basePath/k`. -/
theorem PutConfiguration_writes_absent (client : keeperClient) (config : ConfigValue)
    (mock : MockCoreKeeper) (l1 : List pair) (kv : pair) (l2 : List pair) (K : String)
    (hflat : convertMapToKVPairs "" config = l1 ++ kv :: l2)
    (herr : (client.PutConfiguration mockTransport config false mock).2 = none)
    (hK : client.storeKey kv.Key = some K)
    (hstore : ∀ e ∈ mock.keyValueStore, stringsHasPrefix e.1 K = false)
    (hearlier : ∀ kv0 ∈ l1, ∀ k, client.storeKey kv0.Key = some k →
      stringsHasPrefix k K = false) :
    mapGet K (client.PutConfiguration mockTransport config false mock).1.keyValueStore
      = some ⟨K, .scalar (.str kv.Value)⟩ ∧
    (cleanRelative client.configBasePath = true → cleanRelative kv.Key = true →
      K = client.configBasePath ++ "/" ++ kv.Key) := by
  unfold keeperClient.PutConfiguration at herr ⊢
  simp only [Bool.false_eq_true, if_false] at herr ⊢
  rw [hflat] at herr ⊢
  refine ⟨putAbsent_writes client mock l1 kv l2 K herr hK hstore hearlier, fun hb hn => ?_⟩
  rw [storeKey_clean client kv.Key hb hn] at hK
  injection hK with hK
  exact hK.symm

/-- Over a delivering connection, at base path `a`, the store `{a/b: 0}` and the
configuration `{b: 1, c: 2}`: the pair `(c, 2)` is written under `a/c`. -/
theorem PutConfiguration_writes_absent_witness :
    mapGet "a/c" (sampleClient.PutConfiguration mockTransport sampleConfig false
      sampleStore).1.keyValueStore = some ⟨"a/c", .scalar (.str "2")⟩ ∧
    "a/c" = sampleClient.configBasePath ++ "/" ++ "c" :=
  have h := PutConfiguration_writes_absent sampleClient sampleConfig sampleStore
    [⟨"b", "1"⟩] ⟨"c", "2"⟩ [] "a/c" (by decide) (by decide) (by decide) (by decide)
    (by
      intro kv0 h0 k hk
      rw [List.mem_singleton] at h0
      rw [h0] at hk
      have hb : sampleClient.storeKey "b" = some "a/b" := by decide
      rw [show (⟨"b", "1"⟩ : pair).Key = "b" from rfl, hb] at hk
      injection hk with hk
      rw [← hk]
      decide)
  ⟨h.1, h.2 (by decide) (by decide)⟩

/-! ## Existence checks and error handling: the claims -/

theorem hasConfiguration_mock (client : keeperClient) (mock : MockCoreKeeper)
    (hurl : client.caller.baseUrl.parseError = none)
    (hbase : cleanRelative client.configBasePath = true) :
    KV.Keys mockTransport client.caller client.configBasePath mock
      = (mock, ⟨(mock.checkForPrefix client.configBasePath).1.map KV.Key⟩, none) ∧
    client.HasConfiguration mockTransport mock
      = (mock, (mock.checkForPrefix client.configBasePath).2, none) := by
  have hk : KV.Keys mockTransport client.caller client.configBasePath mock
      = (mock, ⟨(mock.checkForPrefix client.configBasePath).1.map KV.Key⟩, none) := by
    rw [keys_mock, hurl, routedKey_clean _ hbase]
  refine ⟨hk, ?_⟩
  unfold keeperClient.HasConfiguration
  rw [hk]
  simp only [List.length_map]
  rcases Bool.eq_false_or_eq_true (mock.checkForPrefix client.configBasePath).2 with hc | hc
  · have hne := (checkForPrefix_fst mock client.configBasePath).2 hc
    rw [if_neg (fun h0 => hne (List.length_eq_zero.mp h0)), hc]
  · rw [(checkForPrefix_fst mock client.configBasePath).1 hc, hc]
    rfl

/-- The existence check when every request is delivered (`mockTransport`), for a
client whose base URL parses and whose base path is in clean form:
`HasConfiguration` returns `(true, nil)` exactly when
some stored key starts with the base path; when none does (the store answers
not-found) `KV.Keys` returns an empty key list and a nil error and
`HasConfiguration` returns `(false, nil)`; in no case an error. -/
theorem HasConfiguration_iff_key_under_base (client : keeperClient) (mock : MockCoreKeeper)
    (hurl : client.caller.baseUrl.parseError = none)
    (hbase : cleanRelative client.configBasePath = true) :
    ((client.HasConfiguration mockTransport mock).2 = (true, none) ↔
      ∃ e ∈ mock.keyValueStore, stringsHasPrefix e.1 client.configBasePath = true) ∧
    ((∀ e ∈ mock.keyValueStore, stringsHasPrefix e.1 client.configBasePath = false) →
      (KV.Keys mockTransport client.caller client.configBasePath mock).2.1.Keys = [] ∧
      (KV.Keys mockTransport client.caller client.configBasePath mock).2.2 = none ∧
      (client.HasConfiguration mockTransport mock).2 = (false, none)) ∧
    (client.HasConfiguration mockTransport mock).2.2 = none := by
  obtain ⟨hk, hh⟩ := hasConfiguration_mock client mock hurl hbase
  rw [hk, hh]
  refine ⟨?_, ?_, rfl⟩
  · constructor
    · intro h
      have ht : (mock.checkForPrefix client.configBasePath).2 = true := by
        simpa using congrArg Prod.fst h
      by_contra hne
      have hall : ∀ e ∈ mock.keyValueStore,
          stringsHasPrefix e.1 client.configBasePath = false := by
        intro e he
        rcases Bool.eq_false_or_eq_true (stringsHasPrefix e.1 client.configBasePath)
          with h1 | h1
        · exact absurd ⟨e, he, h1⟩ hne
        · exact h1
      rw [(checkForPrefix_snd mock _).mpr hall] at ht
      cases ht
    · rintro ⟨e, he, hpre⟩
      rcases Bool.eq_false_or_eq_true (mock.checkForPrefix client.configBasePath).2
        with hc | hc
      · rw [hc]
      · rw [(checkForPrefix_snd mock _).mp hc e he] at hpre
        cases hpre
  · intro hall
    have hc := (checkForPrefix_snd mock client.configBasePath).mpr hall
    refine ⟨?_, rfl, by rw [hc]⟩
    show (mock.checkForPrefix client.configBasePath).1.map KV.Key = []
    rw [(checkForPrefix_fst mock _).1 hc]
    rfl

/-- Over a delivering connection, at base path `a`: the store `{a/b: 0}` holds a
key that starts with it, the empty store holds none. -/
theorem HasConfiguration_iff_key_under_base_witness :
    (sampleClient.HasConfiguration mockTransport sampleStore).2 = (true, none) ∧
    (KV.Keys mockTransport sampleClient.caller "a" ⟨[]⟩).2.1.Keys = [] ∧
    (KV.Keys mockTransport sampleClient.caller "a" ⟨[]⟩).2.2 = none ∧
    (sampleClient.HasConfiguration mockTransport ⟨[]⟩).2 = (false, none) :=
  ⟨(HasConfiguration_iff_key_under_base sampleClient sampleStore rfl (by decide)).1.mpr
      ⟨("a/b", ⟨"a/b", .scalar (.str "0")⟩), by simp [sampleStore], by decide⟩,
    (HasConfiguration_iff_key_under_base sampleClient ⟨[]⟩ rfl (by decide)).2.1
      (by intro e he; cases he)⟩

/-- C8 (the code at the failing input): on the empty store, which answers 404
for the key `edgex/core`, `KV.Get` returns no pair and the error
`query key edgex/core not found`, where `KV.Keys` returns no key and a nil
error. -/
theorem Get_not_found_is_error :
    (KV.Get mockTransport sampleClient.caller "edgex/core" ⟨[]⟩).2.1.KVs.length = 0 ∧
    (KV.Get mockTransport sampleClient.caller "edgex/core" ⟨[]⟩).2.2
      = some "query key edgex/core not found" ∧
    (KV.Keys mockTransport sampleClient.caller "edgex/core" ⟨[]⟩).2.1.Keys = [] ∧
    (KV.Keys mockTransport sampleClient.caller "edgex/core" ⟨[]⟩).2.2 = none := by
  decide

/-- C9 (the code at the failing input): when sending the request fails with a
network error, with another error or with a nil response, or when reading the
response body fails, `Caller.Ping` returns nil and `IsAlive` returns true. -/
theorem Ping_nil_on_transport_failure (raw host url base : String) (status : Int) :
    (((callerOf raw host).Ping (constTransport .opError) ()).2 = none ∧
      ((⟨url, callerOf raw host, base⟩ : keeperClient).IsAlive
        (constTransport .opError) ()).2 = true) ∧
    (((callerOf raw host).Ping (constTransport .otherError) ()).2 = none ∧
      ((⟨url, callerOf raw host, base⟩ : keeperClient).IsAlive
        (constTransport .otherError) ()).2 = true) ∧
    (((callerOf raw host).Ping (constTransport .nilResponse) ()).2 = none ∧
      ((⟨url, callerOf raw host, base⟩ : keeperClient).IsAlive
        (constTransport .nilResponse) ()).2 = true) ∧
    (((callerOf raw host).Ping (constTransport (.response ⟨status, none⟩)) ()).2 = none ∧
      ((⟨url, callerOf raw host, base⟩ : keeperClient).IsAlive
        (constTransport (.response ⟨status, none⟩)) ()).2 = true) :=
  ⟨⟨rfl, rfl⟩, ⟨rfl, rfl⟩, ⟨rfl, rfl⟩, ⟨rfl, rfl⟩⟩

/-- C10 (the code at the failing input): a response to a single-key PUT with
status 500, or any status from 208 on, whose body is not an error document
makes `KV.Put` return nil. -/
theorem Put_nil_on_error_status (raw host key value bytes : String) (n : Nat) :
    (KV.Put (constTransport (.response ⟨500, some (.raw bytes)⟩)) (callerOf raw host) key
      (.bytes value) ()).2 = none ∧
    (KV.Put (constTransport (.response ⟨208 + (n : Int), some (.raw bytes)⟩))
      (callerOf raw host) key (.bytes value) ()).2 = none := by
  constructor
  · rfl
  · have hn : ¬ (208 + (n : Int) ≤ 207) := by omega
    simp [KV.Put, PutRequest, createRequestWithRawData, callerOf, sendRequest, constTransport,
      makeRequest, getBody, hn, unmarshalErrorResponse, ErrorResponse.zero]

/-! ## Parsing what the flattener renders -/

theorem digitChar_isDigit (k : Nat) (h : k < 10) : (Nat.digitChar k).isDigit = true := by
  interval_cases k <;> decide

theorem isDigit_toDigitsCore (fuel : Nat) :
    ∀ (n : Nat) (ds : List Char), (∀ c ∈ ds, c.isDigit = true) →
      ∀ c ∈ Nat.toDigitsCore 10 fuel n ds, c.isDigit = true := by
  induction fuel with
  | zero => intro n ds h c hc; exact h c (by simpa [Nat.toDigitsCore] using hc)
  | succ fuel ih =>
      intro n ds h c hc
      rw [Nat.toDigitsCore] at hc
      have hd : ∀ c ∈ Nat.digitChar (n % 10) :: ds, c.isDigit = true := by
        intro c hc
        rcases List.mem_cons.mp hc with hc | hc
        · rw [hc]; exact digitChar_isDigit _ (Nat.mod_lt _ (by decide))
        · exact h c hc
      by_cases h0 : n / 10 = 0
      · simp only [h0, if_true] at hc
        exact hd c hc
      · simp only [h0, if_false] at hc
        exact ih _ _ hd c hc

theorem repr_data (n : Nat) : (Nat.repr n).data = Nat.toDigits 10 n := rfl

theorem toDigits_ne_nil (n : Nat) : Nat.toDigits 10 n ≠ [] := by
  have h := nonEmpty_strconvItoa n
  simp only [nonEmpty, strconvItoa, repr_data, Bool.not_eq_true', List.isEmpty_eq_false] at h
  exact h

theorem parseDigits_repr (n : Nat) : parseDigits (Nat.repr n).data = some n := by
  have hall : (Nat.toDigits 10 n).all (fun c => c.isDigit) = true := by
    rw [List.all_eq_true]
    exact isDigit_toDigitsCore (n + 1) n [] (fun c hc => by cases hc)
  have hne : (Nat.toDigits 10 n).isEmpty = false := by
    simpa using toDigits_ne_nil n
  have hval := foldl_toDigitsCore (n + 1) n [] (Nat.lt_succ_self n)
  simp only [List.foldl_nil] at hval
  unfold parseDigits
  rw [repr_data, hall, hne]
  simp only [Bool.not_true, Bool.or_self, Bool.false_eq_true, if_false]
  exact congrArg some hval

theorem parseInt_toString (i : Int) : parseInt (toString i) = some i := by
  cases i with
  | ofNat m =>
      have hs : (toString (Int.ofNat m)).data = Nat.toDigits 10 m := rfl
      have hp := parseDigits_repr m
      rw [repr_data] at hp
      unfold parseInt
      rw [hs]
      cases hd : Nat.toDigits 10 m with
      | nil => exact absurd hd (toDigits_ne_nil m)
      | cons c cs =>
          have hc : c.isDigit = true :=
            isDigit_toDigitsCore (m + 1) m [] (fun c hc => by cases hc) c
              (by show c ∈ Nat.toDigits 10 m; rw [hd]; simp)
          have hne : c ≠ '-' := by
            intro he
            rw [he] at hc
            revert hc
            decide
          rw [hd] at hp
          split
          · rename_i ds heq
            injection heq with h1 _
            exact absurd h1 hne
          · rw [hp]
            rfl
  | negSucc m =>
      have hs : (toString (Int.negSucc m)).data = '-' :: (Nat.repr (m + 1)).data := rfl
      unfold parseInt
      rw [hs]
      simp only [parseDigits_repr, Option.map_some']
      rfl

/-! ## Walking the leaves of a value into its fresh target -/

theorem setField_hit (key value name : String) (rest : List String) (tc : ConfigValue)
    (more : List (String × ConfigValue)) (done : List (String × ConfigValue))
    (h : name ∉ done.map Prod.fst) :
    setField key value name rest (done ++ (name, tc) :: more) =
      match setPath key value tc rest with
      | .ok c => .ok (done ++ (name, c) :: more)
      | .error e => .error e := by
  induction done with
  | nil =>
      rw [List.nil_append, setField, if_pos rfl]
      cases setPath key value tc rest <;> rfl
  | cons d ds ih =>
      obtain ⟨n0, v0⟩ := d
      have hne : n0 ≠ name := fun he => h (by rw [← he]; simp)
      have hds : name ∉ ds.map Prod.fst := fun hm => h (by
        simp only [List.map_cons, List.mem_cons]; right; exact hm)
      rw [List.cons_append, setField, if_neg hne, ih hds]
      cases setPath key value tc rest <;> rfl

theorem setItem_hit (key value : String) (rest : List String) (item : ConfigValue)
    (more : List ConfigValue) (done : List ConfigValue) :
    ∀ start : Nat,
      setItem key value (strconvItoa (start + done.length)) rest start (done ++ item :: more) =
        match setPath key value item rest with
        | .ok c => .ok (done ++ c :: more)
        | .error e => .error e := by
  induction done with
  | nil =>
      intro start
      rw [List.nil_append, List.length_nil, Nat.add_zero, setItem, if_pos rfl]
      cases setPath key value item rest <;> rfl
  | cons d ds ih =>
      intro start
      have hne : strconvItoa start ≠ strconvItoa (start + (d :: ds).length) := by
        intro he
        have := strconvItoa_injective _ _ he
        simp only [List.length_cons] at this
        omega
      have hlen : start + (d :: ds).length = (start + 1) + ds.length := by
        simp only [List.length_cons]; omega
      rw [List.cons_append, setItem, if_neg hne, hlen, ih (start + 1)]
      cases setPath key value item rest <;> rfl

theorem applyAll_append (a b : List (String × String × List String)) :
    ∀ t : ConfigValue, applyAll (a ++ b) t =
      match applyAll a t with
      | .ok c => applyAll b c
      | .error e => .error e := by
  induction a with
  | nil => intro t; rfl
  | cons i rest ih =>
      intro t
      rw [List.cons_append, applyAll, applyAll]
      cases setPath i.1 i.2.1 t i.2.2 with
      | error e => rfl
      | ok c => exact ih c

theorem applyAll_field (name : String) (done more : List (String × ConfigValue))
    (h : name ∉ done.map Prod.fst) (l : List (String × String × List String)) :
    ∀ tc : ConfigValue,
      applyAll (l.map (fun i => (i.1, i.2.1, name :: i.2.2)))
          (.object (done ++ (name, tc) :: more)) =
        match applyAll l tc with
        | .ok c => .ok (.object (done ++ (name, c) :: more))
        | .error e => .error e := by
  induction l with
  | nil => intro tc; rfl
  | cons i rest ih =>
      intro tc
      rw [List.map_cons, applyAll, applyAll]
      simp only [setPath]
      rw [setField_hit _ _ _ _ _ _ _ h]
      cases setPath i.1 i.2.1 tc i.2.2 with
      | error e => rfl
      | ok c => exact ih c

theorem applyAll_item (done more : List ConfigValue) (l : List (String × String × List String)) :
    ∀ tc : ConfigValue,
      applyAll (l.map (fun i => (i.1, i.2.1, strconvItoa done.length :: i.2.2)))
          (.sequence (done ++ tc :: more)) =
        match applyAll l tc with
        | .ok c => .ok (.sequence (done ++ c :: more))
        | .error e => .error e := by
  induction l with
  | nil => intro tc; rfl
  | cons i rest ih =>
      intro tc
      rw [List.map_cons, applyAll, applyAll]
      simp only [setPath]
      have := setItem_hit i.1 i.2.1 i.2.2 tc more done 0
      rw [Nat.zero_add] at this
      rw [this]
      cases setPath i.1 i.2.1 tc i.2.2 with
      | error e => rfl
      | ok c => exact ih c

theorem coerce_fresh (key : String) (s : Scalar) :
    coerce key (freshScalar s) (castToString s) = .ok s := by
  cases s with
  | str s => rfl
  | int i =>
      simp only [freshScalar, coerce, castToString, parseInt_toString]
  | bool b => cases b <;> rfl
  | null => rfl

theorem map_leafStep_cons (kf : List String → String) (seg : String)
    (ls : List (List String × Scalar)) :
    (ls.map (fun l => (seg :: l.1, l.2))).map (leafStep kf)
      = (ls.map (leafStep (fun segs => kf (seg :: segs)))).map
          (fun i => (i.1, i.2.1, seg :: i.2.2)) := by
  rw [List.map_map, List.map_map]
  rfl

mutual
theorem applyAll_leaves :
    ∀ (v : ConfigValue) (kf : List String → String), distinctNames v = true →
      applyAll ((leaves v).map (leafStep kf)) (fresh v) = .ok v
  | .scalar s, kf, _ => by
      simp only [leaves, List.map_cons, List.map_nil, fresh, applyAll, leafStep, setPath,
        coerce_fresh]
  | .sequence items, kf, h => by
      rw [distinctNames] at h
      rw [leaves, fresh]
      exact applyAll_leavesItems items kf [] h
  | .object fields, kf, h => by
      rw [distinctNames, Bool.and_eq_true, decide_eq_true_eq] at h
      rw [leaves, fresh]
      exact applyAll_leavesFields fields kf [] (by simpa using h.1) h.2
theorem applyAll_leavesItems :
    ∀ (items : List ConfigValue) (kf : List String → String) (done : List ConfigValue),
      distinctNamesItems items = true →
      applyAll ((leavesItems done.length items).map (leafStep kf))
          (.sequence (done ++ freshItems items)) = .ok (.sequence (done ++ items))
  | [], kf, done, _ => by
      simp only [leavesItems, freshItems, List.map_nil, applyAll]
  | item :: rest, kf, done, h => by
      rw [distinctNamesItems, Bool.and_eq_true] at h
      rw [leavesItems, freshItems, List.map_append, map_leafStep_cons, applyAll_append,
        applyAll_item, applyAll_leaves item _ h.1]
      simp only []
      have ih := applyAll_leavesItems rest kf (done ++ [item]) h.2
      simp only [List.length_append, List.length_singleton, List.append_assoc,
        List.singleton_append] at ih
      exact ih
theorem applyAll_leavesFields :
    ∀ (fields : List (String × ConfigValue)) (kf : List String → String)
      (done : List (String × ConfigValue)),
      (done.map Prod.fst ++ fields.map Prod.fst).Nodup →
      distinctNamesFields fields = true →
      applyAll ((leavesFields fields).map (leafStep kf))
          (.object (done ++ freshFields fields)) = .ok (.object (done ++ fields))
  | [], kf, done, _, _ => by
      simp only [leavesFields, freshFields, List.map_nil, applyAll]
  | (name, item) :: rest, kf, done, hn, h => by
      rw [distinctNamesFields, Bool.and_eq_true] at h
      have hnot : name ∉ done.map Prod.fst := by
        intro hm
        rw [List.map_cons, List.nodup_append] at hn
        exact hn.2.2 hm (by simp)
      rw [leavesFields, freshFields, List.map_append, map_leafStep_cons, applyAll_append,
        applyAll_field name done _ hnot, applyAll_leaves item _ h.1]
      simp only []
      have ih := applyAll_leavesFields rest kf (done ++ [(name, item)])
        (by simpa [List.append_assoc] using hn) h.2
      simp only [List.append_assoc, List.singleton_append] at ih
      exact ih
end

/-! ## Relative key paths of flattened keys -/

theorem encodeSegments_intercalate (rest : List String) :
    ∀ s : String, s.data ++ encodeSegments rest
      = ['/'].intercalate ((s :: rest).map String.data) := by
  induction rest with
  | nil => intro s; simp [encodeSegments, List.intercalate, List.intersperse]
  | cons r rs ih =>
      intro s
      rw [encodeSegments, ih r]
      show s.data ++ '/' :: ['/'].intercalate (r.data :: rs.map String.data)
        = ['/'].intercalate (s.data :: r.data :: rs.map String.data)
      rw [intercalate_cons_cons ['/'] s.data r.data]
      simp

theorem splitOn_segments (s : String) (rest : List String)
    (h : ∀ x ∈ s :: rest, noDelimiter x = true) :
    ((s.data ++ encodeSegments rest).splitOn '/').map String.mk = s :: rest := by
  rw [encodeSegments_intercalate,
    List.splitOn_intercalate ((s :: rest).map String.data) '/' ?_ (by simp), List.map_map]
  · have hid : (String.mk ∘ String.data) = id := funext (fun x => rfl)
    rw [hid, List.map_id]
  · intro l hl
    rcases List.mem_map.mp hl with ⟨x, hx, rfl⟩
    exact (noDelimiter_iff x).mp (h x hx)

theorem relativePath_key (p : String) (segs : List String)
    (hn : ∀ s ∈ segs, noDelimiter s = true)
    (he : p ≠ "" ∨ ∀ s ∈ segs, nonEmpty s = true) :
    relativePath p (segs.foldl childPath p) = some segs := by
  by_cases hp : p = ""
  · have hne : ∀ s ∈ segs, nonEmpty s = true := by
      rcases he with he | he
      · exact absurd hp he
      · exact he
    subst hp
    unfold relativePath
    simp only [List.isPrefixOf, if_true, List.length_nil, List.drop_zero, Option.some.injEq]
    cases segs with
    | nil => rfl
    | cons s rest =>
        have hs := (nonEmpty_iff s).mp (hne s (by simp))
        rw [foldl_childPath_empty_cons s rest hs]
        cases hd : s.data with
        | nil => exact absurd ((data_eq_nil_iff s).mp hd) hs
        | cons c cs =>
            have hc : c ≠ '/' := by
              intro hc
              have := (noDelimiter_iff s).mp (hn s (by simp))
              rw [hd, hc] at this
              exact this (by simp)
            rw [List.cons_append, segmentsOf, if_neg hc, ← List.cons_append, ← hd]
            exact splitOn_segments s rest hn
  · unfold relativePath
    rw [foldl_childPath_eq_delimitedKey segs p hp, delimitedKey_data]
    have hpre : p.data.isPrefixOf (p.data ++ encodeSegments segs) = true := by
      rw [List.isPrefixOf_iff_prefix]
      exact List.prefix_append _ _
    rw [if_pos hpre, List.drop_left]
    cases segs with
    | nil => rfl
    | cons s rest =>
        rw [encodeSegments, segmentsOf, if_pos rfl]
        exact congrArg some (splitOn_segments s rest hn)

theorem decode_eq_applyAll (p : String) (ls : List (List String × Scalar))
    (h : ∀ l ∈ ls, relativePath p (l.1.foldl childPath p) = some l.1) :
    ∀ t : ConfigValue,
      decode p (ls.map (leafPair p)) t
        = applyAll (ls.map (leafStep (fun segs => segs.foldl childPath p))) t := by
  induction ls with
  | nil => intro t; rfl
  | cons l rest ih =>
      intro t
      have hl : relativePath p (leafPair p l).Key = some l.1 := h l (by simp)
      rw [List.map_cons, List.map_cons, decode, hl, applyAll]
      simp only []
      have hstep : setPath (leafPair p l).Key (leafPair p l).Value t l.1
          = setPath (leafStep (fun segs => segs.foldl childPath p) l).1
              (leafStep (fun segs => segs.foldl childPath p) l).2.1 t
              (leafStep (fun segs => segs.foldl childPath p) l).2.2 := rfl
      rw [hstep]
      cases setPath (leafStep (fun segs => segs.foldl childPath p) l).1
          (leafStep (fun segs => segs.foldl childPath p) l).2.1 t
          (leafStep (fun segs => segs.foldl childPath p) l).2.2 with
      | error e => rfl
      | ok c => exact ih (fun x hx => h x (List.mem_cons_of_mem _ hx)) c

/-! ## Round trip: the claim -/

/-- C6 (as stated, refuted): for the value `{"a/b": 1}` and the prefix `cfg`,
decoding the flattened pairs into the fresh target leaves the target as it was,
`{"a/b": 0}`, not the value. -/
theorem decode_flatten_delimiter_name :
    decode "cfg" (convertMapToKVPairs "cfg" delimiterNameTree) (fresh delimiterNameTree)
      = .ok (fresh delimiterNameTree) ∧
    fresh delimiterNameTree ≠ delimiterNameTree := by
  refine ⟨rfl, fun h => ?_⟩
  simp [fresh, freshFields, freshScalar, delimiterNameTree] at h

/-- C6 (amended): when the maps of `v` have distinct field names, no field name
holds the delimiter and either the prefix is non-empty or no field name is
empty, decoding the pairs that flattening `v` under `p` produces into a fresh
target shaped like `v` yields `v`. -/
theorem decode_flatten (p : String) (v : ConfigValue)
    (hd : distinctNames v = true) (hn : namesAll noDelimiter v = true)
    (he : p ≠ "" ∨ namesAll nonEmpty v = true) :
    decode p (convertMapToKVPairs p v) (fresh v) = .ok v := by
  rw [convert_eq_leaves, decode_eq_applyAll p (leaves v) ?_ (fresh v)]
  · exact applyAll_leaves v _ hd
  · intro l hl
    apply relativePath_key p l.1 (segments_of_leaves noDelimiter noDelimiter_strconvItoa v hn l hl)
    rcases he with he | he
    · exact Or.inl he
    · exact Or.inr (segments_of_leaves nonEmpty nonEmpty_strconvItoa v he l hl)

/-- C6, at the empty prefix and the sample tree, and at the prefix `cfg` and the
tree with an empty field name. -/
theorem decode_flatten_witness :
    decode "" (convertMapToKVPairs "" sampleTree) (fresh sampleTree) = .ok sampleTree ∧
    decode "cfg" (convertMapToKVPairs "cfg" emptyNameTree) (fresh emptyNameTree)
      = .ok emptyNameTree :=
  ⟨decode_flatten "" sampleTree (by decide) (by decide) (Or.inr (by decide)),
    decode_flatten "cfg" emptyNameTree (by decide) (by decide) (Or.inl (by decide))⟩

/-! ## Scalars: the claim -/

theorem toString_eq_decimal (i : Int) : toString i = decimal i := by
  cases i with
  | ofNat m =>
      have h : ¬ (Int.ofNat m < 0) := by simp
      unfold decimal
      rw [if_neg h]
      rfl
  | negSucc m =>
      have h : Int.negSucc m < 0 := Int.negSucc_lt_zero m
      unfold decimal
      rw [if_pos h]
      rfl

theorem castToString_eq_canon (s : Scalar) : castToString s = canon s := by
  cases s with
  | str s => rfl
  | int i => exact toString_eq_decimal i
  | bool b => cases b <;> rfl
  | null => rfl

theorem decimal_chars (i : Int) :
    ∀ c ∈ (decimal i).data, c = '-' ∨ c.isDigit = true := by
  have hdig : ∀ n : Nat, ∀ c ∈ (Nat.repr n).data, c.isDigit = true := fun n c hc =>
    isDigit_toDigitsCore (n + 1) n [] (fun c hc => by cases hc) c hc
  intro c hc
  unfold decimal at hc
  split at hc
  · rw [String.data_append] at hc
    rcases List.mem_append.mp hc with h | h
    · left
      simpa using h
    · right
      exact hdig _ c h
  · right
    exact hdig _ c hc

/-- C11: for every prefix `p` and scalar `s`, `convertMapToKVPairs p s` is the
single pair `(p, canon s)`; the canonical string of an integer holds decimal
digits and at most a minus sign (no exponent) and reads back as the integer. -/
theorem convertMapToKVPairs_scalar (p : String) (s : Scalar) :
    convertMapToKVPairs p (.scalar s) = [⟨p, canon s⟩] ∧
    canon (.bool true) = "true" ∧ canon (.bool false) = "false" ∧ canon .null = "" ∧
    (∀ t : String, canon (.str t) = t) ∧
    (∀ i : Int, parseInt (canon (.int i)) = some i ∧
      ∀ c ∈ (canon (.int i)).data, c = '-' ∨ c.isDigit = true) := by
  refine ⟨?_, rfl, rfl, rfl, fun _ => rfl, fun i => ⟨?_, decimal_chars i⟩⟩
  · rw [convertMapToKVPairs, castToString_eq_canon]
  · show parseInt (decimal i) = some i
    rw [← toString_eq_decimal]
    exact parseInt_toString i

/-! ## Single-leaf write and read -/

theorem handle_get_kvs (mock : MockCoreKeeper) (host path : String) :
    (mock.handle ⟨"GET", host, path, [(Plaintext, "true")], none⟩).2 =
      match routedKey path with
      | some k =>
        if (mock.checkForPrefix k).2 then
          ⟨200, some (.multiKV ⟨(mock.checkForPrefix k).1.map
            (fun kvPair => ⟨kvPair.Key, kvPair.Value⟩)⟩)⟩
        else ⟨404, some (.errorResponse ⟨"query key " ++ k ++ " not found", 404⟩)⟩
      | none => ⟨200, some (.raw "")⟩ := by
  unfold MockCoreKeeper.handle routedKey
  simp only [show ("GET" : String) ≠ "PUT" by decide, if_false, if_true]
  cases hr : stringsContains path ApiKVRoute
  · simp only [Bool.false_eq_true, if_false]
    split <;> rfl
  · simp only [if_true]
    have hq : ([(Plaintext, "true")].any fun q => decide (q.1 = KeyOnly)) = false := by decide
    cases hc : (mock.checkForPrefix (stringsReplaceOnce path (ApiKVRoute ++ "/") "")).2
    · simp only [Bool.not_false, if_true, Bool.false_eq_true, if_false]
    · simp only [Bool.not_true, Bool.false_eq_true, if_false, if_true, hq]

theorem get_mock (c : Caller) (key : String) (mock : MockCoreKeeper) :
    KV.Get mockTransport c key mock =
      match c.baseUrl.parseError with
      | some e => (mock, ⟨[]⟩, some e)
      | none =>
        match routedKey (pathJoin [ApiKVRoute, key]) with
        | some k =>
          if (mock.checkForPrefix k).2 then
            (mock, ⟨(mock.checkForPrefix k).1.map (fun kvPair => ⟨kvPair.Key, kvPair.Value⟩)⟩,
              none)
          else (mock, ⟨[]⟩, some ("query key " ++ k ++ " not found"))
        | none => (mock, ⟨[]⟩, none) := by
  unfold KV.Get GetRequest createRequest
  generalize pathJoin [ApiKVRoute, key] = url
  cases hp : c.baseUrl.parseError with
  | some e => simp
  | none =>
    simp only [sendRequest, mockTransport, makeRequest, getBody, Option.getD_some]
    rw [handle_get, handle_get_kvs]
    cases hk : routedKey url with
    | none => simp [ErrorResponse.zero, Body.isEmpty]
    | some k =>
      simp only []
      rcases Bool.eq_false_or_eq_true (mock.checkForPrefix k).2 with hc | hc
      · simp [hc, ErrorResponse.zero, Body.isEmpty, unmarshalMultiKV]
      · simp [hc, unmarshalErrorResponse, ErrorResponse.zero]
        exact fun h => h.symm

theorem filter_mapSet_head (K : String) (kv : KV) (store : List (String × KV))
    (h : ∀ e ∈ store, stringsHasPrefix e.1 K = true → e.1 = K) :
    ∃ tail, ((mapSet K kv store).filter (fun e => stringsHasPrefix e.1 K)).map Prod.snd
      = kv :: tail := by
  induction store with
  | nil =>
      refine ⟨[], ?_⟩
      simp [mapSet, hasPrefix_self]
  | cons e rest ih =>
      obtain ⟨k0, v0⟩ := e
      by_cases h0 : k0 = K
      · rw [mapSet, if_pos h0]
        exact ⟨(rest.filter (fun e => stringsHasPrefix e.1 K)).map Prod.snd,
          by simp [hasPrefix_self]⟩
      · have hno : stringsHasPrefix k0 K = false := by
          rcases Bool.eq_false_or_eq_true (stringsHasPrefix k0 K) with hc | hc
          · exact absurd (h (k0, v0) (by simp) hc) h0
          · exact hc
        obtain ⟨tail, ht⟩ := ih (fun e he => h e (List.mem_cons_of_mem _ he))
        refine ⟨tail, ?_⟩
        rw [mapSet, if_neg h0, List.filter_cons]
        simp only [hno, Bool.false_eq_true, if_false]
        exact ht

theorem checkForPrefix_after_update (mock : MockCoreKeeper) (K : String) (v : ConfigValue)
    (h : ∀ e ∈ mock.keyValueStore, stringsHasPrefix e.1 K = true → e.1 = K) :
    ∃ first tail, ((mock.updateKVStore K v).checkForPrefix K) = (first :: tail, true) ∧
      first.Value = v := by
  have hsplit : ∃ kv : KV, kv.Value = v ∧
      (mock.updateKVStore K v).keyValueStore = mapSet K kv mock.keyValueStore := by
    unfold MockCoreKeeper.updateKVStore
    cases mapGet K mock.keyValueStore with
    | none => exact ⟨⟨K, v⟩, rfl, rfl⟩
    | some old => exact ⟨{ old with Value := v }, rfl, rfl⟩
  obtain ⟨kv, hv, hstore⟩ := hsplit
  obtain ⟨tail, ht⟩ := filter_mapSet_head K kv mock.keyValueStore h
  refine ⟨kv, tail, ?_, hv⟩
  unfold MockCoreKeeper.checkForPrefix
  rw [hstore]
  simp only [ht, List.length_cons]
  rfl

/-- C14 (the code at the failing inputs): with base path `a`, each time
`PutConfigurationValue(name, v)` returns nil and the following
`GetConfigurationValue(name)` does not return `v` with a nil error: with the
store `{a/bc: 0}`, writing `b = 1` and reading `b` returns `0`, the value of
the key `a/bc`, which starts with `a/b` and is listed first; with the empty
store and the connection refused for the PUT, reading `b` returns the error
`query key a/b not found`; with the name `../../../../../x`, whose request
leaves the key-value route, nothing is stored and the read returns an error. -/
theorem GetConfigurationValue_after_put_differs :
    ((sampleClient.PutConfigurationValue mockTransport "b" "1" longerKeyStore).2 = none ∧
      (sampleClient.GetConfigurationValue mockTransport "b"
        (sampleClient.PutConfigurationValue mockTransport "b" "1" longerKeyStore).1).2
        = (some "0", none)) ∧
    ((sampleClient.PutConfigurationValue flakyTransport "b" "1" (⟨[]⟩, [true])).2 = none ∧
      (sampleClient.GetConfigurationValue flakyTransport "b"
        (sampleClient.PutConfigurationValue flakyTransport "b" "1" (⟨[]⟩, [true])).1).2
        = (none, some "query key a/b not found")) ∧
    ((sampleClient.PutConfigurationValue mockTransport "../../../../../x" "1" ⟨[]⟩).2 = none ∧
      (sampleClient.PutConfigurationValue mockTransport "../../../../../x" "1"
        ⟨[]⟩).1.keyValueStore.length = 0 ∧
      (sampleClient.GetConfigurationValue mockTransport "../../../../../x"
        (sampleClient.PutConfigurationValue mockTransport "../../../../../x" "1" ⟨[]⟩).1).2
        = (none, some "../../../../../x configuration not found")) := by
  decide

/-- Write and read of one leaf when every request is delivered
(`mockTransport`): when `PutConfigurationValue(name, v)` returns nil, the request for `name` reaches the store under the key `K`, and no
key of the store other than `K` starts with `K`, the following
`GetConfigurationValue(name)` returns exactly `v` with a nil error; for a base
path and a name in clean form `K` is `basePath/name`. -/
theorem PutConfigurationValue_then_Get (client : keeperClient) (mock : MockCoreKeeper)
    (name v K : String)
    (hput : (client.PutConfigurationValue mockTransport name v mock).2 = none)
    (hK : client.storeKey name = some K)
    (hother : ∀ e ∈ mock.keyValueStore, stringsHasPrefix e.1 K = true → e.1 = K) :
    (client.GetConfigurationValue mockTransport name
      (client.PutConfigurationValue mockTransport name v mock).1).2 = (some v, none) ∧
    (cleanRelative client.configBasePath = true → cleanRelative name = true →
      K = client.configBasePath ++ "/" ++ name) := by
  refine ⟨?_, fun hb hn => ?_⟩
  · rw [putValue_mock] at hput ⊢
    cases hp : client.caller.baseUrl.parseError with
    | some e =>
      rw [hp] at hput
      cases hput
    | none =>
      simp only [hK]
      obtain ⟨first, tail, hcheck, hval⟩ :=
        checkForPrefix_after_update mock K (.scalar (.str v)) hother
      have hroute : routedKey (pathJoin [ApiKVRoute, client.fullPath name]) = some K := hK
      unfold keeperClient.GetConfigurationValue
      dsimp only
      rw [get_mock, hp]
      simp only [hroute, hcheck, if_true, List.map_cons, hval]
      rfl
  · rw [storeKey_clean client name hb hn] at hK
    injection hK with hK
    exact hK.symm

/-- Over a delivering connection, at base path `a` and the store `{a/b: 0}`:
writing `b` and reading it back, and writing `c` and reading it back. -/
theorem PutConfigurationValue_then_Get_witness :
    (sampleClient.GetConfigurationValue mockTransport "b"
      (sampleClient.PutConfigurationValue mockTransport "b" "1" sampleStore).1).2
      = (some "1", none) ∧
    (sampleClient.GetConfigurationValue mockTransport "c"
      (sampleClient.PutConfigurationValue mockTransport "c" "2" sampleStore).1).2
      = (some "2", none) :=
  ⟨(PutConfigurationValue_then_Get sampleClient sampleStore "b" "1" "a/b" (by decide)
      (by decide) (by decide)).1,
    (PutConfigurationValue_then_Get sampleClient sampleStore "c" "2" "a/c" (by decide)
      (by decide) (by decide)).1⟩

/-! ## The watch loop: the claims -/

theorem watchLoop_errors {τ : Type} (env : WatchEnv τ) (client : keeperClient)
    (waitKey : String) (errs : List String) :
    ∀ s : WatchState τ, s.returned = false →
      watchLoop env client waitKey s (errs.map .watchError)
        = { s with errorChannel := s.errorChannel ++ errs } := by
  induction errs with
  | nil => intro s _; simp [watchLoop]
  | cons e rest ih =>
      intro s hs
      have hstep : watchStep env client waitKey s (.watchError e)
          = { s with errorChannel := s.errorChannel ++ [e] } := by
        simp [watchStep, hs]
      have := ih { s with errorChannel := s.errorChannel ++ [e] } hs
      unfold watchLoop at this ⊢
      rw [List.map_cons, List.foldl_cons, hstep, this]
      simp [List.append_assoc]

theorem watchStep_decoded_le {τ : Type} (env : WatchEnv τ) (client : keeperClient)
    (waitKey : String) (s : WatchState τ) (event : WatchEvent) :
    (watchStep env client waitKey s event).isFirstUpdate = s.isFirstUpdate ∧
        (watchStep env client waitKey s event).decoded = s.decoded ∨
      s.isFirstUpdate = true ∧ event.isMessage = true ∧
        (watchStep env client waitKey s event).isFirstUpdate = false ∧
        (watchStep env client waitKey s event).decoded = s.decoded ∨
      s.isFirstUpdate = false ∧ event.isMessage = true ∧
        (watchStep env client waitKey s event).isFirstUpdate = false ∧
        (watchStep env client waitKey s event).decoded.length = s.decoded.length + 1 := by
  unfold watchStep
  by_cases hr : s.returned = true
  · rw [if_pos hr]; exact Or.inl ⟨rfl, rfl⟩
  · rw [if_neg hr]
    cases event with
    | watchingDone => exact Or.inl ⟨rfl, rfl⟩
    | watchError e => exact Or.inl ⟨rfl, rfl⟩
    | message m =>
      simp only []
      by_cases hf : s.isFirstUpdate = true
      · rw [if_pos hf]
        exact Or.inr (Or.inl ⟨hf, rfl, rfl, rfl⟩)
      · rw [if_neg hf]
        by_cases hc : m.ContentType ≠ env.ContentTypeJSON
        · rw [if_pos hc]; exact Or.inl ⟨rfl, rfl⟩
        · rw [if_neg hc]
          cases env.unmarshalKV m.Payload with
          | none => exact Or.inl ⟨rfl, rfl⟩
          | some respKV =>
            refine Or.inr (Or.inr ⟨by simpa using hf, rfl, by simpa using hf, ?_⟩)
            simp

theorem filter_isMessage_cons (event : WatchEvent) (rest : List WatchEvent) :
    ((event :: rest).filter WatchEvent.isMessage).length
      = (if event.isMessage then 1 else 0) + (rest.filter WatchEvent.isMessage).length := by
  cases h : event.isMessage <;> simp [List.filter_cons, h, Nat.add_comm]

theorem watchLoop_decoded_later {τ : Type} (env : WatchEnv τ) (client : keeperClient)
    (waitKey : String) (events : List WatchEvent) :
    ∀ s : WatchState τ, s.isFirstUpdate = false →
      (watchLoop env client waitKey s events).decoded.length
        ≤ s.decoded.length + (events.filter WatchEvent.isMessage).length := by
  induction events with
  | nil => intro s _; simp [watchLoop]
  | cons event rest ih =>
      intro s hs
      have hloop : watchLoop env client waitKey s (event :: rest)
          = watchLoop env client waitKey (watchStep env client waitKey s event) rest := rfl
      rw [hloop, filter_isMessage_cons]
      rcases watchStep_decoded_le env client waitKey s event with h | h | h
      · have := ih _ (h.1.trans hs)
        rw [h.2] at this
        omega
      · rw [hs] at h
        exact absurd h.1 (by decide)
      · have := ih _ h.2.2.1
        rw [h.2.2.2, ] at this
        rw [h.2.1]
        simp only [if_true]
        omega

theorem watchLoop_decoded_first {τ : Type} (env : WatchEnv τ) (client : keeperClient)
    (waitKey : String) (events : List WatchEvent) :
    ∀ s : WatchState τ, s.isFirstUpdate = true →
      (watchLoop env client waitKey s events).decoded.length
        ≤ s.decoded.length + ((events.filter WatchEvent.isMessage).length - 1) := by
  induction events with
  | nil => intro s _; simp [watchLoop]
  | cons event rest ih =>
      intro s hs
      have hloop : watchLoop env client waitKey s (event :: rest)
          = watchLoop env client waitKey (watchStep env client waitKey s event) rest := rfl
      rw [hloop, filter_isMessage_cons]
      rcases watchStep_decoded_le env client waitKey s event with h | h | h
      · have := ih _ (h.1.trans hs)
        rw [h.2] at this
        omega
      · have := watchLoop_decoded_later env client waitKey rest _ h.2.2.1
        rw [h.2.2.2] at this
        rw [h.2.1]
        simp only [if_true]
        omega
      · rw [hs] at h
        exact absurd h.1 (by decide)

theorem watchStep_target {τ : Type} (env : WatchEnv τ) (client : keeperClient)
    (waitKey : String) (target : τ) (s : WatchState τ) (event : WatchEvent)
    (h : s.decoded = [] → s.configuration = target) :
    (watchStep env client waitKey s event).decoded = [] →
      (watchStep env client waitKey s event).configuration = target := by
  unfold watchStep
  by_cases hr : s.returned = true
  · rw [if_pos hr]; exact h
  · rw [if_neg hr]
    cases event with
    | watchingDone => exact h
    | watchError e => exact h
    | message m =>
      simp only []
      by_cases hf : s.isFirstUpdate = true
      · rw [if_pos hf]; exact h
      · rw [if_neg hf]
        by_cases hc : m.ContentType ≠ env.ContentTypeJSON
        · rw [if_pos hc]; exact h
        · rw [if_neg hc]
          cases env.unmarshalKV m.Payload with
          | none => exact h
          | some respKV =>
            intro hd
            simp at hd

theorem watchLoop_target {τ : Type} (env : WatchEnv τ) (client : keeperClient)
    (waitKey : String) (target : τ) (events : List WatchEvent) :
    ∀ s : WatchState τ, (s.decoded = [] → s.configuration = target) →
      (watchLoop env client waitKey s events).decoded = [] →
      (watchLoop env client waitKey s events).configuration = target := by
  induction events with
  | nil => intro s h; exact h
  | cons event rest ih =>
      intro s h
      exact ih _ (watchStep_target env client waitKey target s event h)

theorem watchLoop_returned {τ : Type} (env : WatchEnv τ) (client : keeperClient)
    (waitKey : String) (events : List WatchEvent) :
    ∀ s : WatchState τ, s.returned = true → watchLoop env client waitKey s events = s := by
  induction events with
  | nil => intro s _; rfl
  | cons event rest ih =>
      intro s hs
      have hstep : watchStep env client waitKey s event = s := by
        unfold watchStep
        rw [if_pos hs]
      have hloop : watchLoop env client waitKey s (event :: rest)
          = watchLoop env client waitKey (watchStep env client waitKey s event) rest := rfl
      rw [hloop, hstep]
      exact ih s hs

theorem watchStep_done_returned {τ : Type} (env : WatchEnv τ) (client : keeperClient)
    (waitKey : String) (s : WatchState τ) :
    (watchStep env client waitKey s .watchingDone).returned = true := by
  unfold watchStep
  by_cases hr : s.returned = true
  · rw [if_pos hr]; exact hr
  · rw [if_neg hr]

theorem watchLoop_append {τ : Type} (env : WatchEnv τ) (client : keeperClient)
    (waitKey : String) (s : WatchState τ) (a b : List WatchEvent) :
    watchLoop env client waitKey s (a ++ b)
      = watchLoop env client waitKey (watchLoop env client waitKey s a) b := by
  unfold watchLoop
  rw [List.foldl_append]

/-- C12: whatever errors of the subscription come before it, the first message
the loop receives, whatever its content type and payload, leaves exactly the
informational string on the update channel, no call of `decode`, and the target
as it was; over any sequence of events `decode` is called at most once per
message after the first, and while `decode` has not been called the target is
the one the loop started with. -/
theorem watch_first_message {τ : Type} (env : WatchEnv τ) (client : keeperClient)
    (waitKey : String) (target : τ) (errs : List String) (msgEnvelope : MessageEnvelope) :
    watchLoop env client waitKey (watchStart target)
        (errs.map .watchError ++ [.message msgEnvelope])
      = ⟨false, target, [.text "watch config change subscription established"], errs, [],
          false⟩ ∧
    (∀ events : List WatchEvent,
      (watchLoop env client waitKey (watchStart target) events).decoded.length
        ≤ (events.filter WatchEvent.isMessage).length - 1) ∧
    (∀ events : List WatchEvent,
      (watchLoop env client waitKey (watchStart target) events).decoded = [] →
      (watchLoop env client waitKey (watchStart target) events).configuration = target) := by
  refine ⟨?_, fun events => ?_, fun events => ?_⟩
  · rw [watchLoop_append, watchLoop_errors env client waitKey errs (watchStart target) rfl]
    simp [watchLoop, watchStep, watchStart]
  · have := watchLoop_decoded_first env client waitKey events (watchStart target) rfl
    simpa [watchStart] using this
  · exact watchLoop_target env client waitKey target events (watchStart target) (fun _ => rfl)

/-- C12, with an environment in which every payload decodes: a first message of
JSON content type is answered by the informational string alone, and of two
such messages only the second is decoded. -/
theorem watch_first_message_witness :
    watchLoop sampleEnv sampleClient "w" (watchStart [])
        ([].map .watchError ++ [.message ⟨"application/json", "a/w/x"⟩])
      = ⟨false, [], [.text "watch config change subscription established"], [], [], false⟩ ∧
    (watchLoop sampleEnv sampleClient "w" (watchStart [])
        [.message ⟨"application/json", "a/w/x"⟩,
          .message ⟨"application/json", "a/w/y"⟩]).decoded.length ≤ 2 - 1 ∧
    (watchLoop sampleEnv sampleClient "w" (watchStart [])
        [.message ⟨"application/json", "a/w/x"⟩,
          .message ⟨"application/json", "a/w/y"⟩]).decoded.map (fun d => d.2.Key)
      = ["a/w/y"] :=
  ⟨(watch_first_message sampleEnv sampleClient "w" [] [] ⟨"application/json", "a/w/x"⟩).1,
    (watch_first_message sampleEnv sampleClient "w" [] [] ⟨"application/json", "a/w/x"⟩).2.1
      [.message ⟨"application/json", "a/w/x"⟩, .message ⟨"application/json", "a/w/y"⟩],
    by decide⟩

/-- C13: once the loop has received the stop signal it has returned: whatever
messages and errors come later, the state (what was pushed on the update
channel and on the error channel, and the target) stays as it was when the
signal was received. -/
theorem watch_stopped {τ : Type} (env : WatchEnv τ) (client : keeperClient)
    (waitKey : String) (target : τ) (s : WatchState τ) (before later : List WatchEvent) :
    watchLoop env client waitKey (watchStep env client waitKey s .watchingDone) later
      = watchStep env client waitKey s .watchingDone ∧
    watchLoop env client waitKey (watchStart target) (before ++ [.watchingDone] ++ later)
      = watchLoop env client waitKey (watchStart target) (before ++ [.watchingDone]) ∧
    (watchLoop env client waitKey (watchStart target)
        (before ++ [.watchingDone] ++ later)).updateChannel
      = (watchLoop env client waitKey (watchStart target) before).updateChannel ∧
    (watchLoop env client waitKey (watchStart target)
        (before ++ [.watchingDone] ++ later)).errorChannel
      = (watchLoop env client waitKey (watchStart target) before).errorChannel ∧
    (watchLoop env client waitKey (watchStart target)
        (before ++ [.watchingDone] ++ later)).configuration
      = (watchLoop env client waitKey (watchStart target) before).configuration := by
  have hstop : ∀ t : WatchState τ,
      watchLoop env client waitKey (watchStep env client waitKey t .watchingDone) later
        = watchStep env client waitKey t .watchingDone := fun t =>
    watchLoop_returned env client waitKey later _ (watchStep_done_returned env client waitKey t)
  have hone : ∀ t : WatchState τ, watchLoop env client waitKey t [.watchingDone]
      = watchStep env client waitKey t .watchingDone := fun t => rfl
  have hkeep : ∀ t : WatchState τ,
      (watchStep env client waitKey t .watchingDone).updateChannel = t.updateChannel ∧
      (watchStep env client waitKey t .watchingDone).errorChannel = t.errorChannel ∧
      (watchStep env client waitKey t .watchingDone).configuration = t.configuration := by
    intro t
    unfold watchStep
    by_cases hr : t.returned = true
    · rw [if_pos hr]; exact ⟨rfl, rfl, rfl⟩
    · rw [if_neg hr]; exact ⟨rfl, rfl, rfl⟩
  have hall : watchLoop env client waitKey (watchStart target)
      (before ++ [.watchingDone] ++ later)
      = watchStep env client waitKey (watchLoop env client waitKey (watchStart target) before)
          .watchingDone := by
    rw [watchLoop_append, watchLoop_append, hone, hstop]
  refine ⟨hstop s, ?_, ?_, ?_, ?_⟩
  · rw [hall, watchLoop_append, hone]
  · rw [hall]; exact (hkeep _).1
  · rw [hall]; exact (hkeep _).2.1
  · rw [hall]; exact (hkeep _).2.2

/-! ## Existence of the configuration: the code at the failing inputs -/

/-- C7 (the code at the failing inputs): with base path `a` and the store
`{ab/c: 0}`, which holds no key `a` and no key below `a/`, `HasConfiguration`
returns `(true, nil)`, because `ab/c` starts with `a`; with the store `{a/b: 0}`
and the connection refused, `HasConfiguration` returns `(false, nil)` although
the store holds `a/b`; with the empty base path and the store `{a/b: 0}` it
returns `(false, nil)`. -/
theorem HasConfiguration_differs_from_store :
    ((sampleClient.HasConfiguration mockTransport otherServiceStore).2 = (true, none) ∧
      otherServiceStore.keyValueStore.all
        (fun e => e.1 != "a" && !stringsHasPrefix e.1 "a/") = true) ∧
    ((sampleClient.HasConfiguration flakyTransport (sampleStore, [true])).2 = (false, none) ∧
      sampleStore.keyValueStore.any (fun e => stringsHasPrefix e.1 "a/") = true) ∧
    ((emptyBaseClient.HasConfiguration mockTransport sampleStore).2 = (false, none) ∧
      sampleStore.keyValueStore.any (fun e => stringsHasPrefix e.1 "") = true) := by
  decide

end Keeper
